import Mathlib

/-!
# Throttling listener (`limiter/limiter.go`)

A shallow embedding of `LimitListener` and `limitConn`.

* Go pointers are addresses into explicit heaps: `World.conns` holds every
  `limitConn` ever allocated by `Accept`, `World.raw` every connection handed
  out by the wrapped `net.Listener`.
* What the wrapped listener and the wrapped connections return is chosen by the
  environment and is an argument of the call that consumes it.
* Calls are sequential: a blocking `WaitN` moves the clock `World.now` forward.
  Goroutine interleavings are outside the model.
* `World.trace` is ghost state: the calls made on the collaborators (the two rate
  limiters and the transport), in call order.
-/

namespace Throttling

/-- Errors that can come out of the package. -/
inductive Error where
  /-- Text `rate: Wait(n=%d) exceeds limiter's burst %d`. -/
  | exceedsBurst (n : Nat) (burst : Int)
  /-- Text `only TCP connections are supported`. -/
  | onlyTCP
  /-- Any error value produced by package `net`. -/
  | transport (code : Nat)
  deriving DecidableEq

/-! ## The rate limiter -/

/-- Modelled from the spec: the token bucket `RateLimiter` of section 4.1. The code
uses `rate.Limiter` of `golang.org/x/time/rate`, which is a dependency and not part
of the sources. `limit` is the refill rate in tokens per second, kept as the integer
that `rate.Limit(n)` was applied to, `burst` is the capacity, `tokens` the balance as
of time `last` (seconds). Token arithmetic is exact. -/
structure Limiter where
  limit : Int
  burst : Int
  tokens : ℚ
  last : ℚ
  deriving DecidableEq

/-- Modelled from the spec: the longest wait the limiter can ask for (`InfDuration`
of the rate package, the largest `time.Duration`, in seconds). -/
def InfDuration : ℚ := (2 ^ 63 - 1) / 10 ^ 9

/-- Modelled from the spec: `rate.NewLimiter(r, b)` at time `t`; the bucket starts
full. -/
def NewLimiter (r : Int) (b : Int) (t : ℚ) : Limiter :=
  { limit := r, burst := b, tokens := b, last := t }

/-- Modelled from the spec: the balance at time `t`: tokens accrue at `limit` per
elapsed second since `last` and are capped at `burst`; a non-positive rate accrues
nothing. -/
def Limiter.advance (lim : Limiter) (t : ℚ) : ℚ :=
  let last := min lim.last t
  let delta : ℚ := if lim.limit ≤ 0 then 0 else (t - last) * lim.limit
  min (lim.tokens + delta) lim.burst

/-- Modelled from the spec: `(*rate.Limiter).SetLimit` at time `t`. -/
def Limiter.SetLimit (lim : Limiter) (t : ℚ) (newLimit : Int) : Limiter :=
  { lim with tokens := lim.advance t, last := t, limit := newLimit }

/-- Modelled from the spec: `(*rate.Limiter).SetBurst` at time `t`. -/
def Limiter.SetBurst (lim : Limiter) (t : ℚ) (newBurst : Int) : Limiter :=
  { lim with tokens := lim.advance t, last := t, burst := newBurst }

/-- Modelled from the spec: `(*rate.Limiter).WaitN(context.Background(), n)` called at
time `t`. Returns the limiter afterwards, the time at which the call returns, and the
error. A request above capacity fails at once and touches nothing. Otherwise `n`
tokens are debited and the caller sleeps until the balance is no longer negative. A
limiter of rate zero never refills and is debited from its burst instead; a negative
rate with a negative balance waits `InfDuration`. A background context is never
cancelled and has no deadline. -/
def Limiter.WaitN (lim : Limiter) (t : ℚ) (n : Nat) : Limiter × ℚ × Option Error :=
  if (n : Int) > lim.burst then
    (lim, t, some (Error.exceedsBurst n lim.burst))
  else if lim.limit = 0 then
    ({ lim with burst := lim.burst - n }, t, none)
  else
    let tokens : ℚ := lim.advance t - n
    let wait : ℚ :=
      if tokens < 0 then (if lim.limit ≤ 0 then InfDuration else -tokens / lim.limit) else 0
    ({ lim with tokens := tokens, last := t }, t + wait, none)

/-! ## Data model -/

/-- A byte of a buffer. -/
abbrev Byte := Fin 256

/-- A connection handed out by the wrapped `net.Listener`. -/
structure RawConn where
  /-- Whether the dynamic type is `*net.TCPConn`. -/
  isTCP : Bool
  /-- Whether `Close` has been called on it. -/
  closed : Bool
  deriving DecidableEq

/-- The struct `limitConn`. `Conn` is the address of the embedded `net.Conn` in
`World.raw`. The field `globalLimit` is the pointer `l.globalLimit` of the one
listener of the world and is read through it. `removeFn` is the closure
`func() { l.removeConnection(tc) }`, given by the `tc` it captured; `none` is the
nil func. -/
structure limitConn where
  Conn : Nat
  perConnLimit : Limiter
  removeFn : Option Nat
  deriving DecidableEq

/-- The struct `LimitListener`. `activeConnections` holds the keys of the map, which
are addresses into `World.conns`. The embedded `Listener` is the environment, `mu` has
no content in a sequential model. -/
structure LimitListener where
  perConnLimit : Limiter
  globalLimit : Limiter
  activeConnections : List Nat
  deriving DecidableEq

/-- Calls on collaborators, for the ghost trace. -/
inductive Event where
  /-- The call `c.globalLimit.WaitN(ctx, n)`. -/
  | waitGlobal (n : Nat)
  /-- The call `c.perConnLimit.WaitN(ctx, n)` of connection `c`. -/
  | waitPerConn (c : Nat) (n : Nat)
  /-- The call `c.Conn.Read(b)` with `len(b) = n`. -/
  | connRead (c : Nat) (n : Nat)
  /-- The call `c.Conn.Write(b)` with `len(b) = n`. -/
  | connWrite (c : Nat) (n : Nat)
  /-- The call `Close()` on the raw connection `r`. -/
  | rawClose (r : Nat)
  deriving DecidableEq

/-- One listener with the objects reachable from it, the clock and the ghost trace. -/
structure World where
  l : LimitListener
  conns : List limitConn
  raw : List RawConn
  now : ℚ
  trace : List Event

/-- What the call `l.Listener.Accept()` and the two keep-alive calls return. -/
inductive Accepted where
  /-- The wrapped listener failed. -/
  | fail (e : Error)
  /-- The wrapped listener returned a connection; `keepAlive` and `keepAlivePeriod`
  are the results of `SetKeepAlive(true)` and `SetKeepAlivePeriod(5s)` on it. -/
  | conn (isTCP : Bool) (keepAlive : Option Error) (keepAlivePeriod : Option Error)

/-! ## Operations -/

/-- The function `NewLimitListener(l, perConnLimit, globalLimit)`, called at time `t`. -/
def NewLimitListener (perConnLimit globalLimit : Int) (t : ℚ) : World :=
  { l := { perConnLimit := NewLimiter perConnLimit perConnLimit t
           globalLimit := NewLimiter globalLimit globalLimit t
           activeConnections := [] }
    conns := []
    raw := []
    now := t
    trace := [] }

/-- Body of the loop of `SetLimit` for one key `c` of the map. -/
def setConnLimit (t : ℚ) (perConnLimit : Int) (conns : List limitConn) (c : Nat) :
    List limitConn :=
  match conns[c]? with
  | none => conns
  | some conn =>
    conns.set c
      { conn with
        perConnLimit := (conn.perConnLimit.SetLimit t perConnLimit).SetBurst t perConnLimit }

/-- The method `(*LimitListener).SetLimit`. -/
def LimitListener.SetLimit (w : World) (perConnLimit globalLimit : Int) : World :=
  let g := (w.l.globalLimit.SetLimit w.now globalLimit).SetBurst w.now globalLimit
  let p := (w.l.perConnLimit.SetLimit w.now perConnLimit).SetBurst w.now perConnLimit
  { w with
    l := { w.l with globalLimit := g, perConnLimit := p }
    conns := w.l.activeConnections.foldl (setConnLimit w.now perConnLimit) w.conns }

/-- The method `(*LimitListener).Accept`. Returns the address of the new `limitConn`
(`none` is the nil `net.Conn`) and the error. -/
def LimitListener.Accept (w : World) (env : Accepted) : World × Option Nat × Option Error :=
  match env with
  | Accepted.fail e => (w, none, some e)
  | Accepted.conn isTCP keepAlive keepAlivePeriod =>
    let c := w.raw.length
    let w1 : World := { w with raw := w.raw ++ [{ isTCP := isTCP, closed := false }] }
    if !isTCP then
      (w1, none, some Error.onlyTCP)
    else
      match keepAlive with
      | some e => (w1, none, some e)
      | none =>
        match keepAlivePeriod with
        | some e => (w1, none, some e)
        | none =>
          let tc := w1.conns.length
          let conn : limitConn :=
            { Conn := c
              perConnLimit := NewLimiter w1.l.perConnLimit.limit w1.l.perConnLimit.burst w1.now
              removeFn := some tc }
          ({ w1 with
             conns := w1.conns ++ [conn]
             l := { w1.l with activeConnections := w1.l.activeConnections.insert tc } },
           some tc, none)

/-- The method `(*LimitListener).removeConnection`. -/
def LimitListener.removeConnection (w : World) (tc : Nat) : World :=
  { w with l := { w.l with activeConnections := w.l.activeConnections.filter (fun d => d != tc) } }

/-- The call `Close()` on the raw connection `r`. -/
def closeRaw (raw : List RawConn) (r : Nat) : List RawConn :=
  match raw[r]? with
  | none => raw
  | some rc => raw.set r { rc with closed := true }

/-- The method `(*limitConn).Close` on the connection at address `c`; `res` is what
`c.Conn.Close()` returns. `none` is a run-time panic (nil dereference, nil func). -/
def limitConn.Close (w : World) (c : Nat) (res : Option Error) : Option (World × Option Error) :=
  match w.conns[c]? with
  | none => none
  | some conn =>
    match conn.removeFn with
    | none => none
    | some tc =>
      let w1 := LimitListener.removeConnection w tc
      some ({ w1 with raw := closeRaw w1.raw conn.Conn
                      trace := w1.trace ++ [Event.rawClose conn.Conn] }, res)

/-- The method `(*limitConn).Read` on the connection at address `c`; `res` is what
`c.Conn.Read(b)` returns if it is called. `none` is a run-time panic. -/
def limitConn.Read (w : World) (c : Nat) (b : List Byte) (res : Nat × Option Error) :
    Option (World × Nat × Option Error) :=
  match w.conns[c]? with
  | none => none
  | some conn =>
    let n := b.length
    if n > 0 then
      let g := w.l.globalLimit.WaitN w.now n
      let w1 : World :=
        { w with l := { w.l with globalLimit := g.1 }
                 now := g.2.1
                 trace := w.trace ++ [Event.waitGlobal n] }
      match g.2.2 with
      | some err => some (w1, 0, some err)
      | none =>
        let p := conn.perConnLimit.WaitN w1.now n
        let w2 : World :=
          { w1 with conns := w1.conns.set c { conn with perConnLimit := p.1 }
                    now := p.2.1
                    trace := w1.trace ++ [Event.waitPerConn c n] }
        match p.2.2 with
        | some err => some (w2, 0, some err)
        | none => some ({ w2 with trace := w2.trace ++ [Event.connRead c n] }, res)
    else
      some ({ w with trace := w.trace ++ [Event.connRead c n] }, res)

/-- The method `(*limitConn).Write` on the connection at address `c`; `res` is what
`c.Conn.Write(b)` returns if it is called. `none` is a run-time panic. -/
def limitConn.Write (w : World) (c : Nat) (b : List Byte) (res : Nat × Option Error) :
    Option (World × Nat × Option Error) :=
  match w.conns[c]? with
  | none => none
  | some conn =>
    let n := b.length
    let g := w.l.globalLimit.WaitN w.now n
    let w1 : World :=
      { w with l := { w.l with globalLimit := g.1 }
               now := g.2.1
               trace := w.trace ++ [Event.waitGlobal n] }
    match g.2.2 with
    | some err => some (w1, 0, some err)
    | none =>
      let p := conn.perConnLimit.WaitN w1.now n
      let w2 : World :=
        { w1 with conns := w1.conns.set c { conn with perConnLimit := p.1 }
                  now := p.2.1
                  trace := w1.trace ++ [Event.waitPerConn c n] }
      match p.2.2 with
      | some err => some (w2, 0, some err)
      | none => some ({ w2 with trace := w2.trace ++ [Event.connWrite c n] }, res)

/-- The method `(*limitConn).GetLimits`. -/
def limitConn.GetLimits (w : World) (c : Nat) : Option (Int × Int) :=
  match w.conns[c]? with
  | none => none
  | some conn => some (conn.perConnLimit.limit, w.l.globalLimit.limit)

/-! ## Call sequences -/

/-- A call made by the application, with what the environment answers. -/
inductive Op where
  | accept (env : Accepted)
  | close (c : Nat) (res : Option Error)
  | read (c : Nat) (b : List Byte) (res : Nat × Option Error)
  | write (c : Nat) (b : List Byte) (res : Nat × Option Error)
  | setLimit (perConnLimit globalLimit : Int)
  /-- Time passes: `d` seconds (a negative `d` is no time). -/
  | tick (d : ℚ)

/-- The world after one call. A call on an address that holds no connection cannot
be made and leaves the world as it is. -/
def step (w : World) : Op → World
  | Op.accept env => (LimitListener.Accept w env).1
  | Op.close c res => ((limitConn.Close w c res).map Prod.fst).getD w
  | Op.read c b res => ((limitConn.Read w c b res).map Prod.fst).getD w
  | Op.write c b res => ((limitConn.Write w c b res).map Prod.fst).getD w
  | Op.setLimit p g => LimitListener.SetLimit w p g
  | Op.tick d => { w with now := w.now + max d 0 }

/-- The world after a sequence of calls. -/
def run (w : World) (ops : List Op) : World :=
  ops.foldl step w

/-- The pair passed to the most recent `SetLimit` of `ops`, or `(p0, g0)` if there is
none. -/
def lastLimits (p0 g0 : Int) : List Op → Int × Int
  | [] => (p0, g0)
  | Op.setLimit p g :: ops => lastLimits p g ops
  | _ :: ops => lastLimits p0 g0 ops

/-- Whether the environment lets `Accept` succeed: the wrapped listener returned a
`*net.TCPConn` and both keep-alive calls returned nil. -/
def acceptSucceeds : Accepted → Bool
  | Accepted.conn true none none => true
  | _ => false

/-- The connections returned by a successful `Accept` of `ops` and not passed to `Close`
since, on top of `acc`. The connections the listener hands out are told apart by
their order: `next` is the number handed out so far and names the next one. Only
the calls and the answers of the environment are read, no state of the listener. -/
def acceptedNotClosed (next : Nat) (acc : List Nat) : List Op → List Nat
  | [] => acc
  | Op.accept env :: ops =>
    if acceptSucceeds env then acceptedNotClosed (next + 1) (next :: acc) ops
    else acceptedNotClosed next acc ops
  | Op.close c _ :: ops => acceptedNotClosed next (acc.filter (fun d => d != c)) ops
  | _ :: ops => acceptedNotClosed next acc ops

/-- The number of successful `Accept` calls in `ops`. -/
def acceptedCount : List Op → Nat
  | [] => 0
  | Op.accept env :: ops => (if acceptSucceeds env then 1 else 0) + acceptedCount ops
  | _ :: ops => acceptedCount ops

/-- Well-formedness of the heaps. -/
def WF (w : World) : Prop :=
  (∀ c ∈ w.l.activeConnections, c < w.conns.length) ∧
  (∀ (c : Nat) (conn : limitConn), w.conns[c]? = some conn →
    conn.removeFn = some c ∧ conn.Conn < w.raw.length ∧
      conn.perConnLimit.burst = conn.perConnLimit.limit) ∧
  w.l.perConnLimit.burst = w.l.perConnLimit.limit ∧
  w.l.globalLimit.burst = w.l.globalLimit.limit

/-- The configuration `(p, g)` is installed: the global limiter runs at `g`, the default
and every registered connection at `p`. -/
def Cfg (p g : Int) (w : World) : Prop :=
  w.l.globalLimit.limit = g ∧ w.l.perConnLimit.limit = p ∧
  ∀ c ∈ w.l.activeConnections, ∀ conn : limitConn, w.conns[c]? = some conn →
    conn.perConnLimit.limit = p

/-- Whether the transport under the connection at address `c` has been closed. -/
def connClosed (w : World) (c : Nat) : Bool :=
  match w.conns[c]? with
  | none => false
  | some conn =>
    match w.raw[conn.Conn]? with
    | none => false
    | some rc => rc.closed

/-- The world reached from `NewLimitListener(l, p0, g0)`, called at time `t`, by the
calls `ops`. -/
def reachable (p0 g0 : Int) (t : ℚ) (ops : List Op) : World :=
  run (NewLimitListener p0 g0 t) ops

/-- The gating contract of an I/O method `f` of `limitConn` whose transport call is
logged as `ev`, for a call on connection `c` (holding `conn`) with buffer `b` in world
`w`, where the transport would return `res`:

* a buffer longer than the global capacity: `(0, error)`, only the global limiter was
  called, it and every connection (so the per-connection limiter) are untouched;
* otherwise, a buffer longer than the per-connection capacity: `(0, error)`, the global
  and then the per-connection limiter were called, the transport was not;
* otherwise: the global limiter, then the per-connection limiter (at the time the
  global acquisition returned), then the transport were called, and the result is the
  transport's. -/
def Gated
    (f : World → Nat → List Byte → Nat × Option Error → Option (World × Nat × Option Error))
    (ev : Nat → Nat → Event) (w : World) (c : Nat) (conn : limitConn) (b : List Byte)
    (res : Nat × Option Error) : Prop :=
  (w.l.globalLimit.burst < (b.length : Int) →
    ∃ w1, f w c b res =
        some (w1, 0, some (Error.exceedsBurst b.length w.l.globalLimit.burst)) ∧
      w1.trace = w.trace ++ [Event.waitGlobal b.length] ∧
      w1.conns = w.conns ∧ w1.l.globalLimit = w.l.globalLimit) ∧
  ((b.length : Int) ≤ w.l.globalLimit.burst → conn.perConnLimit.burst < (b.length : Int) →
    ∃ w1, f w c b res =
        some (w1, 0, some (Error.exceedsBurst b.length conn.perConnLimit.burst)) ∧
      w1.trace = w.trace ++ [Event.waitGlobal b.length, Event.waitPerConn c b.length] ∧
      w1.conns = w.conns ∧
      w1.l.globalLimit = (w.l.globalLimit.WaitN w.now b.length).1) ∧
  ((b.length : Int) ≤ w.l.globalLimit.burst → (b.length : Int) ≤ conn.perConnLimit.burst →
    ∃ w1, f w c b res = some (w1, res) ∧
      w1.trace = w.trace ++
        [Event.waitGlobal b.length, Event.waitPerConn c b.length, ev c b.length] ∧
      w1.l.globalLimit = (w.l.globalLimit.WaitN w.now b.length).1 ∧
      w1.conns[c]? = some { conn with
        perConnLimit :=
          (conn.perConnLimit.WaitN (w.l.globalLimit.WaitN w.now b.length).2.1 b.length).1 })

/-- The tokens a limiter can hand out at once at time `t`: its balance, or nothing
while the balance is negative. -/
def avail (lim : Limiter) (t : ℚ) : ℚ :=
  max (lim.advance t) 0

/-- The bytes of a transport call in the trace: `len(b)` of a `Conn.Read(b)` or
`Conn.Write(b)`. A transport call is made exactly when the `Read` or `Write` was
admitted. -/
def Event.bytes : Event → Nat
  | Event.connRead _ n => n
  | Event.connWrite _ n => n
  | _ => 0

/-- The bytes of a transport call of connection `c` in the trace. -/
def Event.bytesOf (c : Nat) : Event → Nat
  | Event.connRead d n => if d = c then n else 0
  | Event.connWrite d n => if d = c then n else 0
  | _ => 0

/-- The sum of `len(b)` over the admitted `Read` and `Write` calls of a trace. -/
def admittedBytes (tr : List Event) : Nat :=
  (tr.map Event.bytes).sum

/-- The sum of `len(b)` over the admitted `Read` and `Write` calls of connection `c`. -/
def admittedBytesOf (c : Nat) (tr : List Event) : Nat :=
  (tr.map (Event.bytesOf c)).sum

/-- Whether the call is a `SetLimit`. -/
def Op.isSetLimit : Op → Bool
  | Op.setLimit _ _ => true
  | _ => false

/-- The rate of the limiter of connection `c`; for an address not allocated yet, the
rate a connection accepted now would get. -/
def connRate (w : World) (c : Nat) : Int :=
  match w.conns[c]? with
  | some conn => conn.perConnLimit.limit
  | none => w.l.perConnLimit.limit

/-- The tokens connection `c` can spend at once; for an address not allocated yet, the
burst a connection accepted now would start with. -/
def connAvail (w : World) (c : Nat) : ℚ :=
  match w.conns[c]? with
  | some conn => avail conn.perConnLimit w.now
  | none => max (w.l.perConnLimit.burst : ℚ) 0

/-- The world `w1` is the world `w` after a `Read` or `Write` of `n` bytes on the
connection `conn` at address `c`, whose transport call is `ev`: one of the four ways
through the method. -/
def CallShape (w w1 : World) (c : Nat) (conn : limitConn) (n : Nat) (ev : Event) : Prop :=
  (n = 0 ∧ w1 = { w with trace := w.trace ++ [ev] }) ∨
  (w.l.globalLimit.burst < (n : Int) ∧
    w1 = { w with trace := w.trace ++ [Event.waitGlobal n] }) ∨
  ((n : Int) ≤ w.l.globalLimit.burst ∧ conn.perConnLimit.burst < (n : Int) ∧
    w1 = { w with
      l := { w.l with globalLimit := (w.l.globalLimit.WaitN w.now n).1 }
      now := (w.l.globalLimit.WaitN w.now n).2.1
      trace := w.trace ++ [Event.waitGlobal n, Event.waitPerConn c n] }) ∨
  ((n : Int) ≤ w.l.globalLimit.burst ∧ (n : Int) ≤ conn.perConnLimit.burst ∧
    w1 = { w with
      l := { w.l with globalLimit := (w.l.globalLimit.WaitN w.now n).1 }
      conns := w.conns.set c { conn with
        perConnLimit := (conn.perConnLimit.WaitN (w.l.globalLimit.WaitN w.now n).2.1 n).1 }
      now := (conn.perConnLimit.WaitN (w.l.globalLimit.WaitN w.now n).2.1 n).2.1
      trace := w.trace ++ [Event.waitGlobal n, Event.waitPerConn c n, ev] })

/-- The limiter `b` is the limiter `a` after at most one `WaitN`. -/
def LimStep (a b : Limiter) : Prop :=
  b = a ∨ ∃ t n, b = (a.WaitN t n).1

theorem WaitN_of_gt (lim : Limiter) (t : ℚ) (n : Nat) (h : lim.burst < (n : Int)) :
    lim.WaitN t n = (lim, t, some (Error.exceedsBurst n lim.burst)) := by
  simp [Limiter.WaitN, h]

theorem WaitN_of_le (lim : Limiter) (t : ℚ) (n : Nat) (h : (n : Int) ≤ lim.burst) :
    (lim.WaitN t n).2.2 = none := by
  have h2 : ¬ lim.burst < (n : Int) := not_lt.mpr h
  unfold Limiter.WaitN
  simp only [gt_iff_lt, h2, if_false]
  split_ifs <;> rfl

theorem WaitN_limit (lim : Limiter) (t : ℚ) (n : Nat) :
    (lim.WaitN t n).1.limit = lim.limit := by
  unfold Limiter.WaitN
  split_ifs <;> rfl

theorem WaitN_burst (lim : Limiter) (t : ℚ) (n : Nat) (h : lim.burst = lim.limit) :
    (lim.WaitN t n).1.burst = lim.burst := by
  unfold Limiter.WaitN
  by_cases h1 : (n : Int) > lim.burst
  · simp [h1]
  · by_cases h2 : lim.limit = 0
    · have h3 : (n : Int) = 0 := by omega
      have h4 : ¬ lim.burst < 0 := by omega
      simp [h2, h3, h4]
    · simp [h1, h2]

theorem LimStep_limit {a b : Limiter} (h : LimStep a b) : b.limit = a.limit := by
  rcases h with h | ⟨t, n, h⟩
  · rw [h]
  · rw [h, WaitN_limit]

theorem LimStep_burst {a b : Limiter} (h : LimStep a b) (hb : a.burst = a.limit) :
    b.burst = a.burst := by
  rcases h with h | ⟨t, n, h⟩
  · rw [h]
  · rw [h, WaitN_burst _ _ _ hb]

theorem set_same {α : Type} (xs : List α) (i : Nat) (a : α) (h : xs[i]? = some a) :
    xs.set i a = xs := by
  apply List.ext_getElem?
  intro j
  rw [List.getElem?_set]
  split_ifs with h1 h2
  · rw [← h1, h]
  · rw [← h1, h]
    obtain ⟨h3, -⟩ := List.getElem?_eq_some_iff.mp h
    omega
  · rfl

theorem LimStep_refl (a : Limiter) : LimStep a a := Or.inl rfl

theorem LimStep_WaitN (a : Limiter) (t : ℚ) (n : Nat) : LimStep a (a.WaitN t n).1 :=
  Or.inr ⟨t, n, rfl⟩

theorem Read_frame (w w1 : World) (c : Nat) (b : List Byte) (res r : Nat × Option Error)
    (h : limitConn.Read w c b res = some (w1, r)) :
    ∃ conn pl, w.conns[c]? = some conn ∧ LimStep conn.perConnLimit pl ∧
      w1.conns = w.conns.set c { conn with perConnLimit := pl } ∧
      w1.l.activeConnections = w.l.activeConnections ∧ w1.raw = w.raw ∧
      w1.l.perConnLimit = w.l.perConnLimit ∧ LimStep w.l.globalLimit w1.l.globalLimit := by
  unfold limitConn.Read at h
  cases hc : w.conns[c]? with
  | none => simp [hc] at h
  | some conn =>
    simp only [hc] at h
    refine ⟨conn, ?_⟩
    split_ifs at h with hn
    · split at h
      · simp only [Option.some.injEq, Prod.mk.injEq] at h
        obtain ⟨rfl, -⟩ := h
        exact ⟨conn.perConnLimit, rfl, LimStep_refl _, (set_same _ _ _ hc).symm, rfl, rfl, rfl,
          LimStep_WaitN _ _ _⟩
      · split at h
        · simp only [Option.some.injEq, Prod.mk.injEq] at h
          obtain ⟨rfl, -⟩ := h
          exact ⟨_, rfl, LimStep_WaitN _ _ _, rfl, rfl, rfl, rfl, LimStep_WaitN _ _ _⟩
        · simp only [Option.some.injEq, Prod.mk.injEq] at h
          obtain ⟨rfl, -⟩ := h
          exact ⟨_, rfl, LimStep_WaitN _ _ _, rfl, rfl, rfl, rfl, LimStep_WaitN _ _ _⟩
    · simp only [Option.some.injEq, Prod.mk.injEq] at h
      obtain ⟨rfl, -⟩ := h
      exact ⟨conn.perConnLimit, rfl, LimStep_refl _, (set_same _ _ _ hc).symm, rfl, rfl, rfl,
        LimStep_refl _⟩

theorem Write_frame (w w1 : World) (c : Nat) (b : List Byte) (res r : Nat × Option Error)
    (h : limitConn.Write w c b res = some (w1, r)) :
    ∃ conn pl, w.conns[c]? = some conn ∧ LimStep conn.perConnLimit pl ∧
      w1.conns = w.conns.set c { conn with perConnLimit := pl } ∧
      w1.l.activeConnections = w.l.activeConnections ∧ w1.raw = w.raw ∧
      w1.l.perConnLimit = w.l.perConnLimit ∧ LimStep w.l.globalLimit w1.l.globalLimit := by
  unfold limitConn.Write at h
  cases hc : w.conns[c]? with
  | none => simp [hc] at h
  | some conn =>
    simp only [hc] at h
    refine ⟨conn, ?_⟩
    split at h
    · simp only [Option.some.injEq, Prod.mk.injEq] at h
      obtain ⟨rfl, -⟩ := h
      exact ⟨conn.perConnLimit, rfl, LimStep_refl _, (set_same _ _ _ hc).symm, rfl, rfl, rfl,
        LimStep_WaitN _ _ _⟩
    · split at h
      · simp only [Option.some.injEq, Prod.mk.injEq] at h
        obtain ⟨rfl, -⟩ := h
        exact ⟨_, rfl, LimStep_WaitN _ _ _, rfl, rfl, rfl, rfl, LimStep_WaitN _ _ _⟩
      · simp only [Option.some.injEq, Prod.mk.injEq] at h
        obtain ⟨rfl, -⟩ := h
        exact ⟨_, rfl, LimStep_WaitN _ _ _, rfl, rfl, rfl, rfl, LimStep_WaitN _ _ _⟩

theorem Close_frame (w w1 : World) (c : Nat) (res r : Option Error)
    (h : limitConn.Close w c res = some (w1, r)) :
    ∃ conn tc, w.conns[c]? = some conn ∧ conn.removeFn = some tc ∧
      w1.l.activeConnections = w.l.activeConnections.filter (fun d => d != tc) ∧
      w1.conns = w.conns ∧ w1.raw = closeRaw w.raw conn.Conn ∧
      w1.l.perConnLimit = w.l.perConnLimit ∧ w1.l.globalLimit = w.l.globalLimit ∧
      w1.now = w.now ∧ w1.trace = w.trace ++ [Event.rawClose conn.Conn] ∧ r = res := by
  unfold limitConn.Close at h
  cases hc : w.conns[c]? with
  | none => simp [hc] at h
  | some conn =>
    simp only [hc] at h
    cases hr : conn.removeFn with
    | none => simp [hr] at h
    | some tc =>
      simp only [hr, Option.some.injEq, Prod.mk.injEq] at h
      obtain ⟨rfl, rfl⟩ := h
      exact ⟨conn, tc, rfl, hr, rfl, rfl, rfl, rfl, rfl, rfl, rfl, rfl⟩

theorem Accept_frame (w : World) (env : Accepted) :
    (LimitListener.Accept w env).1.l.perConnLimit = w.l.perConnLimit ∧
    (LimitListener.Accept w env).1.l.globalLimit = w.l.globalLimit ∧
    (LimitListener.Accept w env).1.now = w.now ∧
    (LimitListener.Accept w env).1.trace = w.trace ∧
    (∃ rs, (LimitListener.Accept w env).1.raw = w.raw ++ rs ∧ ∀ rc ∈ rs, rc.closed = false) ∧
    (((LimitListener.Accept w env).2.1 = none ∧ (LimitListener.Accept w env).2.2 ≠ none ∧
        (LimitListener.Accept w env).1.conns = w.conns ∧
        (LimitListener.Accept w env).1.l.activeConnections = w.l.activeConnections) ∨
     ((LimitListener.Accept w env).2.1 = some w.conns.length ∧
        (LimitListener.Accept w env).2.2 = none ∧
        (LimitListener.Accept w env).1.conns = w.conns ++
          [{ Conn := w.raw.length
             perConnLimit := NewLimiter w.l.perConnLimit.limit w.l.perConnLimit.burst w.now
             removeFn := some w.conns.length }] ∧
        (LimitListener.Accept w env).1.raw = w.raw ++ [{ isTCP := true, closed := false }] ∧
        (LimitListener.Accept w env).1.l.activeConnections =
          w.l.activeConnections.insert w.conns.length)) := by
  have hne : ∀ e : Error, (some e : Option Error) ≠ none := fun e => by simp
  cases env with
  | fail e =>
    exact ⟨rfl, rfl, rfl, rfl, ⟨[], by simp [LimitListener.Accept]⟩,
      Or.inl ⟨rfl, hne e, rfl, rfl⟩⟩
  | conn isTCP ka kap =>
    cases isTCP with
    | false =>
      exact ⟨rfl, rfl, rfl, rfl, ⟨[_], rfl, by simp⟩, Or.inl ⟨rfl, hne _, rfl, rfl⟩⟩
    | true =>
      cases ka with
      | some e =>
        exact ⟨rfl, rfl, rfl, rfl, ⟨[_], rfl, by simp⟩, Or.inl ⟨rfl, hne e, rfl, rfl⟩⟩
      | none =>
        cases kap with
        | some e =>
          exact ⟨rfl, rfl, rfl, rfl, ⟨[_], rfl, by simp⟩, Or.inl ⟨rfl, hne e, rfl, rfl⟩⟩
        | none =>
          exact ⟨rfl, rfl, rfl, rfl, ⟨[_], rfl, by simp⟩, Or.inr ⟨rfl, rfl, rfl, rfl, rfl⟩⟩

theorem getElem?_setConnLimit (t : ℚ) (p : Int) (cs : List limitConn) (c d : Nat) :
    (setConnLimit t p cs c)[d]? =
      if d = c then
        (cs[d]?).map (fun conn =>
          { conn with perConnLimit := (conn.perConnLimit.SetLimit t p).SetBurst t p })
      else cs[d]? := by
  unfold setConnLimit
  cases hc : cs[c]? with
  | none =>
    split_ifs with h
    · subst h; simp [hc]
    · rfl
  | some conn =>
    simp only [List.getElem?_set]
    obtain ⟨h3, -⟩ := List.getElem?_eq_some_iff.mp hc
    split_ifs with h1 h2
    · subst h1; simp [hc]
    · omega
    · omega
    · rfl

theorem foldl_setConnLimit (t : ℚ) (p : Int) (act : List Nat) :
    ∀ (cs : List limitConn) (d : Nat),
      (cs[d]? = none → (act.foldl (setConnLimit t p) cs)[d]? = none) ∧
      (∀ conn, cs[d]? = some conn →
        ∃ conn1, (act.foldl (setConnLimit t p) cs)[d]? = some conn1 ∧
          conn1.Conn = conn.Conn ∧ conn1.removeFn = conn.removeFn ∧
          (conn1.perConnLimit = conn.perConnLimit ∨
            (conn1.perConnLimit.limit = p ∧ conn1.perConnLimit.burst = p)) ∧
          (d ∈ act → conn1.perConnLimit.limit = p ∧ conn1.perConnLimit.burst = p)) := by
  induction act with
  | nil =>
    intro cs d
    exact ⟨fun h => h, fun conn h => ⟨conn, h, rfl, rfl, Or.inl rfl, by simp⟩⟩
  | cons a act ih =>
    intro cs d
    simp only [List.foldl_cons]
    have hs := getElem?_setConnLimit t p cs a d
    constructor
    · intro h
      apply (ih _ d).1
      rw [hs, h]; simp
    · intro conn h
      by_cases hda : d = a
      · rw [if_pos hda, h] at hs
        obtain ⟨conn1, h1, h2, h3, h4, h5⟩ := (ih _ d).2 _ hs
        have h6 : conn1.perConnLimit.limit = p ∧ conn1.perConnLimit.burst = p := by
          rcases h4 with h4 | h4
          · rw [h4]; exact ⟨rfl, rfl⟩
          · exact h4
        exact ⟨conn1, h1, h2, h3, Or.inr h6, fun _ => h6⟩
      · rw [if_neg hda, h] at hs
        obtain ⟨conn1, h1, h2, h3, h4, h5⟩ := (ih _ d).2 _ hs
        refine ⟨conn1, h1, h2, h3, h4, fun hm => ?_⟩
        rcases List.mem_cons.mp hm with hm | hm
        · exact absurd hm hda
        · exact h5 hm

theorem getElem?_closeRaw (raw : List RawConn) (r k : Nat) :
    (closeRaw raw r)[k]? =
      if k = r then (raw[k]?).map (fun rc => { rc with closed := true }) else raw[k]? := by
  unfold closeRaw
  cases hc : raw[r]? with
  | none =>
    split_ifs with h
    · subst h; simp [hc]
    · rfl
  | some rc =>
    simp only [List.getElem?_set]
    obtain ⟨h3, -⟩ := List.getElem?_eq_some_iff.mp hc
    split_ifs with h1 h2
    · subst h1; simp [hc]
    · omega
    · omega
    · rfl

theorem length_closeRaw (raw : List RawConn) (r : Nat) : (closeRaw raw r).length = raw.length := by
  unfold closeRaw
  cases raw[r]? <;> simp

theorem getElem?_set_of_some {α : Type} (xs : List α) (i j : Nat) (x a : α)
    (h : xs[i]? = some x) : (xs.set i a)[j]? = if j = i then some a else xs[j]? := by
  obtain ⟨h3, -⟩ := List.getElem?_eq_some_iff.mp h
  rw [List.getElem?_set]
  by_cases hji : j = i
  · subst hji
    simp [h3]
  · have hij : ¬ i = j := fun e => hji e.symm
    simp [hji, hij]

theorem step_read (w : World) (c : Nat) (b : List Byte) (res : Nat × Option Error) :
    step w (Op.read c b res) = w ∨
      ∃ w1 r, limitConn.Read w c b res = some (w1, r) ∧ step w (Op.read c b res) = w1 := by
  cases h : limitConn.Read w c b res with
  | none => left; simp [step, h]
  | some x => right; exact ⟨x.1, x.2, rfl, by simp [step, h]⟩

theorem step_write (w : World) (c : Nat) (b : List Byte) (res : Nat × Option Error) :
    step w (Op.write c b res) = w ∨
      ∃ w1 r, limitConn.Write w c b res = some (w1, r) ∧ step w (Op.write c b res) = w1 := by
  cases h : limitConn.Write w c b res with
  | none => left; simp [step, h]
  | some x => right; exact ⟨x.1, x.2, rfl, by simp [step, h]⟩

theorem step_close (w : World) (c : Nat) (res : Option Error) :
    (limitConn.Close w c res = none ∧ step w (Op.close c res) = w) ∨
      ∃ w1 r, limitConn.Close w c res = some (w1, r) ∧ step w (Op.close c res) = w1 := by
  cases h : limitConn.Close w c res with
  | none => left; simp [step, h]
  | some x => right; exact ⟨x.1, x.2, rfl, by simp [step, h]⟩

/-- What a step that only runs limiter acquisitions on connection `c` does. -/
theorem WF_of_frame (w w1 : World) (c : Nat) (conn : limitConn) (pl : Limiter) (h : WF w)
    (hc : w.conns[c]? = some conn) (hpl : LimStep conn.perConnLimit pl)
    (h1 : w1.conns = w.conns.set c { conn with perConnLimit := pl })
    (h2 : w1.l.activeConnections = w.l.activeConnections) (h3 : w1.raw = w.raw)
    (h4 : w1.l.perConnLimit = w.l.perConnLimit) (h5 : LimStep w.l.globalLimit w1.l.globalLimit) :
    WF w1 := by
  obtain ⟨a1, a2, a3, a4⟩ := h
  refine ⟨?_, ?_, ?_, ?_⟩
  · intro d hd
    rw [h1, List.length_set]
    exact a1 d (h2 ▸ hd)
  · intro d conn1 hd
    rw [h1, getElem?_set_of_some _ _ _ _ _ hc] at hd
    obtain ⟨b1, b2, b3⟩ := a2 c conn hc
    split_ifs at hd with hdc
    · simp only [Option.some.injEq] at hd
      subst hd
      subst hdc
      refine ⟨b1, h3 ▸ b2, ?_⟩
      show pl.burst = pl.limit
      rw [LimStep_burst hpl b3, LimStep_limit hpl, b3]
    · rw [h3]
      exact a2 d conn1 hd
  · rw [h4]; exact a3
  · rw [LimStep_burst h5 a4, LimStep_limit h5, a4]

theorem Cfg_of_frame (p g : Int) (w w1 : World) (c : Nat) (conn : limitConn) (pl : Limiter)
    (h : Cfg p g w)
    (hc : w.conns[c]? = some conn) (hpl : LimStep conn.perConnLimit pl)
    (h1 : w1.conns = w.conns.set c { conn with perConnLimit := pl })
    (h2 : w1.l.activeConnections = w.l.activeConnections)
    (h4 : w1.l.perConnLimit = w.l.perConnLimit) (h5 : LimStep w.l.globalLimit w1.l.globalLimit) :
    Cfg p g w1 := by
  obtain ⟨a1, a2, a3⟩ := h
  refine ⟨?_, ?_, ?_⟩
  · rw [LimStep_limit h5, a1]
  · rw [h4, a2]
  · intro d hd conn1 hd1
    rw [h1, getElem?_set_of_some _ _ _ _ _ hc] at hd1
    split_ifs at hd1 with hdc
    · simp only [Option.some.injEq] at hd1
      subst hd1
      subst hdc
      show pl.limit = p
      rw [LimStep_limit hpl]
      exact a3 d (h2 ▸ hd) conn hc
    · exact a3 d (h2 ▸ hd) conn1 hd1

theorem WF_NewLimitListener (p g : Int) (t : ℚ) : WF (NewLimitListener p g t) := by
  refine ⟨?_, ?_, rfl, rfl⟩
  · intro c hc
    simp [NewLimitListener] at hc
  · intro c conn hc
    simp [NewLimitListener] at hc

theorem Cfg_NewLimitListener (p g : Int) (t : ℚ) : Cfg p g (NewLimitListener p g t) := by
  refine ⟨rfl, rfl, ?_⟩
  intro c hc
  simp [NewLimitListener] at hc

theorem WF_Accept (w : World) (env : Accepted) (h : WF w) : WF (LimitListener.Accept w env).1 := by
  obtain ⟨a1, a2, a3, a4⟩ := h
  obtain ⟨f1, f2, -, -, ⟨rs, f3, -⟩, f4⟩ := Accept_frame w env
  rcases f4 with ⟨-, -, f5, f6⟩ | ⟨-, -, f5, f7, f6⟩
  · refine ⟨?_, ?_, ?_, ?_⟩
    · intro c hc
      rw [f5]; exact a1 c (f6 ▸ hc)
    · intro c conn hc
      rw [f5] at hc
      obtain ⟨b1, b2, b3⟩ := a2 c conn hc
      refine ⟨b1, ?_, b3⟩
      rw [f3, List.length_append]; omega
    · rw [f1]; exact a3
    · rw [f2]; exact a4
  · refine ⟨?_, ?_, ?_, ?_⟩
    · intro c hc
      rw [f6] at hc
      rw [f5, List.length_append]
      rcases List.mem_insert_iff.mp hc with hc | hc
      · subst hc; simp
      · have := a1 c hc
        omega
    · intro c conn hc
      rw [f5] at hc
      by_cases hlt : c < w.conns.length
      · rw [List.getElem?_append_left hlt] at hc
        obtain ⟨b1, b2, b3⟩ := a2 c conn hc
        refine ⟨b1, ?_, b3⟩
        rw [f7, List.length_append]; omega
      · rw [List.getElem?_append_right (not_lt.mp hlt)] at hc
        have hc0 : c - w.conns.length = 0 := by
          by_contra hne
          obtain ⟨k, hk⟩ := Nat.exists_eq_succ_of_ne_zero hne
          rw [hk] at hc
          simp at hc
        rw [hc0] at hc
        simp only [List.getElem?_cons_zero, Option.some.injEq] at hc
        subst hc
        have hceq : c = w.conns.length := by omega
        refine ⟨by rw [hceq], ?_, ?_⟩
        · rw [f7, List.length_append]; simp
        · exact a3
    · rw [f1]; exact a3
    · rw [f2]; exact a4

theorem getElem?_snoc_some {α : Type} (xs : List α) (a x : α) (c : Nat)
    (h : (xs ++ [a])[c]? = some x) : xs[c]? = some x ∨ (c = xs.length ∧ x = a) := by
  by_cases hlt : c < xs.length
  · rw [List.getElem?_append_left hlt] at h
    exact Or.inl h
  · rw [List.getElem?_append_right (not_lt.mp hlt)] at h
    have hc0 : c - xs.length = 0 := by
      by_contra hne
      obtain ⟨k, hk⟩ := Nat.exists_eq_succ_of_ne_zero hne
      rw [hk] at h
      simp at h
    rw [hc0] at h
    simp only [List.getElem?_cons_zero, Option.some.injEq] at h
    exact Or.inr ⟨by omega, h.symm⟩

theorem Cfg_Accept (p g : Int) (w : World) (env : Accepted) (h : Cfg p g w) :
    Cfg p g (LimitListener.Accept w env).1 := by
  obtain ⟨a1, a2, a3⟩ := h
  obtain ⟨f1, f2, -, -, -, f4⟩ := Accept_frame w env
  rcases f4 with ⟨-, -, f5, f6⟩ | ⟨-, -, f5, -, f6⟩
  · refine ⟨by rw [f2, a1], by rw [f1, a2], ?_⟩
    intro c hc conn hcc
    rw [f5] at hcc
    exact a3 c (f6 ▸ hc) conn hcc
  · refine ⟨by rw [f2, a1], by rw [f1, a2], ?_⟩
    intro c hc conn hcc
    rw [f5] at hcc
    rw [f6] at hc
    rcases getElem?_snoc_some _ _ _ _ hcc with hcc | ⟨-, hcc⟩
    · rcases List.mem_insert_iff.mp hc with hc | hc
      · subst hc
        have := (List.getElem?_eq_some_iff.mp hcc).1
        omega
      · exact a3 c hc conn hcc
    · subst hcc
      exact a2

theorem WF_Close (w w1 : World) (c : Nat) (res r : Option Error) (h : WF w)
    (hc : limitConn.Close w c res = some (w1, r)) : WF w1 := by
  obtain ⟨a1, a2, a3, a4⟩ := h
  obtain ⟨conn, tc, -, -, f1, f2, f3, f4, f5, -⟩ := Close_frame w w1 c res r hc
  refine ⟨?_, ?_, by rw [f4]; exact a3, by rw [f5]; exact a4⟩
  · intro d hd
    rw [f1] at hd
    rw [f2]
    exact a1 d (List.mem_filter.mp hd).1
  · intro d conn1 hd
    rw [f2] at hd
    obtain ⟨b1, b2, b3⟩ := a2 d conn1 hd
    exact ⟨b1, by rw [f3, length_closeRaw]; exact b2, b3⟩

theorem Cfg_Close (p g : Int) (w w1 : World) (c : Nat) (res r : Option Error) (h : Cfg p g w)
    (hc : limitConn.Close w c res = some (w1, r)) : Cfg p g w1 := by
  obtain ⟨a1, a2, a3⟩ := h
  obtain ⟨conn, tc, -, -, f1, f2, f3, f4, f5, -⟩ := Close_frame w w1 c res r hc
  refine ⟨by rw [f5, a1], by rw [f4, a2], ?_⟩
  intro d hd conn1 hd1
  rw [f1] at hd
  rw [f2] at hd1
  exact a3 d (List.mem_filter.mp hd).1 conn1 hd1

theorem length_foldl_setConnLimit (t : ℚ) (p : Int) (act : List Nat) (cs : List limitConn) :
    (act.foldl (setConnLimit t p) cs).length = cs.length := by
  apply le_antisymm
  · by_contra hlt
    have h1 := (foldl_setConnLimit t p act cs cs.length).1 (List.getElem?_eq_none_iff.mpr le_rfl)
    have h2 := List.getElem?_eq_none_iff.mp h1
    omega
  · by_contra hlt
    have hlt2 : (act.foldl (setConnLimit t p) cs).length < cs.length := by omega
    have h0 : cs[(act.foldl (setConnLimit t p) cs).length]? =
        some (cs.get ⟨(act.foldl (setConnLimit t p) cs).length, hlt2⟩) :=
      List.getElem?_eq_some_iff.mpr ⟨hlt2, rfl⟩
    obtain ⟨conn1, h1, -⟩ := (foldl_setConnLimit t p act cs _).2 _ h0
    have h2 := (List.getElem?_eq_some_iff.mp h1).1
    omega

theorem WF_SetLimit (w : World) (p g : Int) (h : WF w) : WF (LimitListener.SetLimit w p g) := by
  obtain ⟨a1, a2, a3, a4⟩ := h
  refine ⟨?_, ?_, rfl, rfl⟩
  · intro c hc
    show c < (w.l.activeConnections.foldl (setConnLimit w.now p) w.conns).length
    rw [length_foldl_setConnLimit]
    exact a1 c hc
  · intro c conn1 hc
    have hc1 : (w.l.activeConnections.foldl (setConnLimit w.now p) w.conns)[c]? = some conn1 := hc
    cases hcc : w.conns[c]? with
    | none =>
      rw [(foldl_setConnLimit w.now p w.l.activeConnections w.conns c).1 hcc] at hc1
      exact absurd hc1 (by simp)
    | some conn =>
      obtain ⟨conn2, h1, h2, h3, h4, -⟩ :=
        (foldl_setConnLimit w.now p w.l.activeConnections w.conns c).2 conn hcc
      rw [h1] at hc1
      simp only [Option.some.injEq] at hc1
      subst hc1
      obtain ⟨b1, b2, b3⟩ := a2 c conn hcc
      refine ⟨by rw [h3]; exact b1, by rw [h2]; exact b2, ?_⟩
      rcases h4 with h4 | ⟨h4, h5⟩
      · rw [h4]; exact b3
      · rw [h4, h5]

theorem Cfg_SetLimit (w : World) (p g : Int) : Cfg p g (LimitListener.SetLimit w p g) := by
  refine ⟨rfl, rfl, ?_⟩
  intro c hc conn1 hc1
  have hc2 : (w.l.activeConnections.foldl (setConnLimit w.now p) w.conns)[c]? = some conn1 := hc1
  have hc3 : c ∈ w.l.activeConnections := hc
  cases hcc : w.conns[c]? with
  | none =>
    rw [(foldl_setConnLimit w.now p w.l.activeConnections w.conns c).1 hcc] at hc2
    exact absurd hc2 (by simp)
  | some conn =>
    obtain ⟨conn2, h1, -, -, -, h5⟩ :=
      (foldl_setConnLimit w.now p w.l.activeConnections w.conns c).2 conn hcc
    rw [h1] at hc2
    simp only [Option.some.injEq] at hc2
    subst hc2
    exact (h5 hc3).1

theorem lastLimits_cons (p g : Int) (op : Op) (ops : List Op) :
    lastLimits p g (op :: ops) = lastLimits (lastLimits p g [op]).1 (lastLimits p g [op]).2 ops := by
  cases op <;> rfl

theorem WF_step (w : World) (op : Op) (h : WF w) : WF (step w op) := by
  cases op with
  | accept env => exact WF_Accept w env h
  | close c res =>
    rcases step_close w c res with ⟨-, h1⟩ | ⟨w1, r, h1, h2⟩
    · rw [h1]; exact h
    · rw [h2]; exact WF_Close w w1 c res r h h1
  | read c b res =>
    rcases step_read w c b res with h1 | ⟨w1, r, h1, h2⟩
    · rw [h1]; exact h
    · rw [h2]
      obtain ⟨conn, pl, f1, f2, f3, f4, f5, f6, f7⟩ := Read_frame w w1 c b res r h1
      exact WF_of_frame w w1 c conn pl h f1 f2 f3 f4 f5 f6 f7
  | write c b res =>
    rcases step_write w c b res with h1 | ⟨w1, r, h1, h2⟩
    · rw [h1]; exact h
    · rw [h2]
      obtain ⟨conn, pl, f1, f2, f3, f4, f5, f6, f7⟩ := Write_frame w w1 c b res r h1
      exact WF_of_frame w w1 c conn pl h f1 f2 f3 f4 f5 f6 f7
  | setLimit p g => exact WF_SetLimit w p g h
  | tick d => exact h

theorem Cfg_step (p g : Int) (w : World) (op : Op) (h : Cfg p g w) :
    Cfg (lastLimits p g [op]).1 (lastLimits p g [op]).2 (step w op) := by
  cases op with
  | accept env => exact Cfg_Accept p g w env h
  | close c res =>
    rcases step_close w c res with ⟨-, h1⟩ | ⟨w1, r, h1, h2⟩
    · rw [h1]; exact h
    · rw [h2]; exact Cfg_Close p g w w1 c res r h h1
  | read c b res =>
    rcases step_read w c b res with h1 | ⟨w1, r, h1, h2⟩
    · rw [h1]; exact h
    · rw [h2]
      obtain ⟨conn, pl, f1, f2, f3, f4, f5, f6, f7⟩ := Read_frame w w1 c b res r h1
      exact Cfg_of_frame p g w w1 c conn pl h f1 f2 f3 f4 f6 f7
  | write c b res =>
    rcases step_write w c b res with h1 | ⟨w1, r, h1, h2⟩
    · rw [h1]; exact h
    · rw [h2]
      obtain ⟨conn, pl, f1, f2, f3, f4, f5, f6, f7⟩ := Write_frame w w1 c b res r h1
      exact Cfg_of_frame p g w w1 c conn pl h f1 f2 f3 f4 f6 f7
  | setLimit p1 g1 => exact Cfg_SetLimit w p1 g1
  | tick d => exact h

theorem run_inv (ops : List Op) :
    ∀ (w : World) (p g : Int), WF w → Cfg p g w →
      WF (run w ops) ∧ Cfg (lastLimits p g ops).1 (lastLimits p g ops).2 (run w ops) := by
  induction ops with
  | nil => intro w p g h1 h2; exact ⟨h1, h2⟩
  | cons op ops ih =>
    intro w p g h1 h2
    rw [lastLimits_cons]
    exact ih (step w op) _ _ (WF_step w op h1) (Cfg_step p g w op h2)

theorem reachable_inv (p0 g0 : Int) (t : ℚ) (ops : List Op) :
    WF (reachable p0 g0 t ops) ∧
      Cfg (lastLimits p0 g0 ops).1 (lastLimits p0 g0 ops).2 (reachable p0 g0 t ops) :=
  run_inv ops _ p0 g0 (WF_NewLimitListener p0 g0 t) (Cfg_NewLimitListener p0 g0 t)

theorem conn_step (w : World) (op : Op) (c : Nat) (conn : limitConn)
    (h : w.conns[c]? = some conn) :
    ∃ conn1, (step w op).conns[c]? = some conn1 ∧ conn1.Conn = conn.Conn := by
  cases op with
  | accept env =>
    obtain ⟨-, -, -, -, -, f4⟩ := Accept_frame w env
    have hlt := (List.getElem?_eq_some_iff.mp h).1
    rcases f4 with ⟨-, -, f5, -⟩ | ⟨-, -, f5, -, -⟩
    · refine ⟨conn, ?_, rfl⟩
      show (LimitListener.Accept w env).1.conns[c]? = some conn
      rw [f5, h]
    · refine ⟨conn, ?_, rfl⟩
      show (LimitListener.Accept w env).1.conns[c]? = some conn
      rw [f5, List.getElem?_append_left hlt, h]
  | close d res =>
    rcases step_close w d res with ⟨-, h1⟩ | ⟨w1, r, h1, h2⟩
    · rw [h1]; exact ⟨conn, h, rfl⟩
    · rw [h2]
      obtain ⟨_, _, -, -, -, f2, -⟩ := Close_frame w w1 d res r h1
      rw [f2]; exact ⟨conn, h, rfl⟩
  | read d b res =>
    rcases step_read w d b res with h1 | ⟨w1, r, h1, h2⟩
    · rw [h1]; exact ⟨conn, h, rfl⟩
    · rw [h2]
      obtain ⟨conn0, pl, f1, -, f3, -⟩ := Read_frame w w1 d b res r h1
      rw [f3, getElem?_set_of_some _ _ _ _ _ f1]
      split_ifs with hcd
      · subst hcd
        rw [f1] at h
        simp only [Option.some.injEq] at h
        subst h
        exact ⟨_, rfl, rfl⟩
      · exact ⟨conn, h, rfl⟩
  | write d b res =>
    rcases step_write w d b res with h1 | ⟨w1, r, h1, h2⟩
    · rw [h1]; exact ⟨conn, h, rfl⟩
    · rw [h2]
      obtain ⟨conn0, pl, f1, -, f3, -⟩ := Write_frame w w1 d b res r h1
      rw [f3, getElem?_set_of_some _ _ _ _ _ f1]
      split_ifs with hcd
      · subst hcd
        rw [f1] at h
        simp only [Option.some.injEq] at h
        subst h
        exact ⟨_, rfl, rfl⟩
      · exact ⟨conn, h, rfl⟩
  | setLimit p g =>
    obtain ⟨conn1, h1, h2, -⟩ :=
      (foldl_setConnLimit w.now p w.l.activeConnections w.conns c).2 conn h
    exact ⟨conn1, h1, h2⟩
  | tick d => exact ⟨conn, h, rfl⟩

theorem raw_step (w : World) (op : Op) (r : Nat) (rc : RawConn) (h : w.raw[r]? = some rc) :
    ∃ rc1, (step w op).raw[r]? = some rc1 ∧ (rc.closed = true → rc1.closed = true) := by
  cases op with
  | accept env =>
    obtain ⟨-, -, -, -, ⟨rs, f3, -⟩, -⟩ := Accept_frame w env
    have hlt := (List.getElem?_eq_some_iff.mp h).1
    refine ⟨rc, ?_, fun x => x⟩
    show (LimitListener.Accept w env).1.raw[r]? = some rc
    rw [f3, List.getElem?_append_left hlt, h]
  | close d res =>
    rcases step_close w d res with ⟨-, h1⟩ | ⟨w1, r1, h1, h2⟩
    · rw [h1]; exact ⟨rc, h, fun x => x⟩
    · rw [h2]
      obtain ⟨conn, _, -, -, -, -, f3, -⟩ := Close_frame w w1 d res r1 h1
      rw [f3, getElem?_closeRaw, h]
      split_ifs with hr
      · exact ⟨_, rfl, fun _ => rfl⟩
      · exact ⟨rc, rfl, fun x => x⟩
  | read d b res =>
    rcases step_read w d b res with h1 | ⟨w1, r1, h1, h2⟩
    · rw [h1]; exact ⟨rc, h, fun x => x⟩
    · rw [h2]
      obtain ⟨_, _, -, -, -, -, f5, -⟩ := Read_frame w w1 d b res r1 h1
      rw [f5]; exact ⟨rc, h, fun x => x⟩
  | write d b res =>
    rcases step_write w d b res with h1 | ⟨w1, r1, h1, h2⟩
    · rw [h1]; exact ⟨rc, h, fun x => x⟩
    · rw [h2]
      obtain ⟨_, _, -, -, -, -, f5, -⟩ := Write_frame w w1 d b res r1 h1
      rw [f5]; exact ⟨rc, h, fun x => x⟩
  | setLimit p g => exact ⟨rc, h, fun x => x⟩
  | tick d => exact ⟨rc, h, fun x => x⟩

theorem connClosed_iff (w : World) (c : Nat) :
    connClosed w c = true ↔
      ∃ conn rc, w.conns[c]? = some conn ∧ w.raw[conn.Conn]? = some rc ∧ rc.closed = true := by
  unfold connClosed
  cases h1 : w.conns[c]? with
  | none => simp
  | some conn =>
    cases h2 : w.raw[conn.Conn]? with
    | none => simp [h2]
    | some rc => simp [h2]

theorem connClosed_step (w : World) (op : Op) (c : Nat) (h : connClosed w c = true) :
    connClosed (step w op) c = true := by
  rw [connClosed_iff] at h ⊢
  obtain ⟨conn, rc, h1, h2, h3⟩ := h
  obtain ⟨conn1, g1, g2⟩ := conn_step w op c conn h1
  obtain ⟨rc1, g3, g4⟩ := raw_step w op conn.Conn rc h2
  exact ⟨conn1, rc1, g1, by rw [g2]; exact g3, g4 h3⟩

theorem connClosed_run (ops : List Op) :
    ∀ (w : World) (c : Nat), connClosed w c = true → connClosed (run w ops) c = true := by
  induction ops with
  | nil => intro w c h; exact h
  | cons op ops ih => intro w c h; exact ih (step w op) c (connClosed_step w op c h)

theorem notActive_step (w : World) (op : Op) (c : Nat) (hc : c < w.conns.length)
    (h : c ∉ w.l.activeConnections) :
    c < (step w op).conns.length ∧ c ∉ (step w op).l.activeConnections := by
  have h0 : w.conns[c]? = some (w.conns.get ⟨c, hc⟩) := List.getElem?_eq_some_iff.mpr ⟨hc, rfl⟩
  obtain ⟨conn1, g1, -⟩ := conn_step w op c _ h0
  refine ⟨(List.getElem?_eq_some_iff.mp g1).1, ?_⟩
  cases op with
  | accept env =>
    obtain ⟨-, -, -, -, -, f4⟩ := Accept_frame w env
    show c ∉ (LimitListener.Accept w env).1.l.activeConnections
    rcases f4 with ⟨-, -, -, f6⟩ | ⟨-, -, -, -, f6⟩
    · rw [f6]; exact h
    · rw [f6]
      intro hm
      rcases List.mem_insert_iff.mp hm with hm | hm
      · omega
      · exact h hm
  | close d res =>
    rcases step_close w d res with ⟨-, h1⟩ | ⟨w1, r, h1, h2⟩
    · rw [h1]; exact h
    · rw [h2]
      obtain ⟨_, _, -, -, f1, -⟩ := Close_frame w w1 d res r h1
      rw [f1]
      intro hm
      exact h (List.mem_filter.mp hm).1
  | read d b res =>
    rcases step_read w d b res with h1 | ⟨w1, r, h1, h2⟩
    · rw [h1]; exact h
    · rw [h2]
      obtain ⟨_, _, -, -, -, f4, -⟩ := Read_frame w w1 d b res r h1
      rw [f4]; exact h
  | write d b res =>
    rcases step_write w d b res with h1 | ⟨w1, r, h1, h2⟩
    · rw [h1]; exact h
    · rw [h2]
      obtain ⟨_, _, -, -, -, f4, -⟩ := Write_frame w w1 d b res r h1
      rw [f4]; exact h
  | setLimit p g => exact h
  | tick d => exact h

theorem notActive_run (ops : List Op) :
    ∀ (w : World) (c : Nat), c < w.conns.length → c ∉ w.l.activeConnections →
      c < (run w ops).conns.length ∧ c ∉ (run w ops).l.activeConnections := by
  induction ops with
  | nil => intro w c h1 h2; exact ⟨h1, h2⟩
  | cons op ops ih =>
    intro w c h1 h2
    obtain ⟨g1, g2⟩ := notActive_step w op c h1 h2
    exact ih (step w op) c g1 g2

theorem WF_run (ops : List Op) : ∀ w : World, WF w → WF (run w ops) := by
  induction ops with
  | nil => intro w h; exact h
  | cons op ops ih => intro w h; exact ih (step w op) (WF_step w op h)

theorem GetLimits_of_inv (p g : Int) (w : World) (hw : WF w) (h : Cfg p g w) (c : Nat)
    (hc : c ∈ w.l.activeConnections) :
    limitConn.GetLimits w c = some (p, g) ∧
      ∃ conn, w.conns[c]? = some conn ∧ conn.perConnLimit.limit = p ∧
        conn.perConnLimit.burst = p := by
  obtain ⟨a1, a2, -, -⟩ := hw
  obtain ⟨b1, -, b3⟩ := h
  have hlt := a1 c hc
  have h0 : w.conns[c]? = some (w.conns.get ⟨c, hlt⟩) := List.getElem?_eq_some_iff.mpr ⟨hlt, rfl⟩
  have h1 := b3 c hc _ h0
  have h2 := (a2 c _ h0).2.2
  refine ⟨?_, _, h0, h1, by rw [h2, h1]⟩
  unfold limitConn.GetLimits
  rw [h0]
  simp only [h1, b1]

theorem Close_of_WF (w : World) (c : Nat) (res : Option Error) (hw : WF w)
    (hc : c < w.conns.length) :
    ∃ w1 conn, limitConn.Close w c res = some (w1, res) ∧ w.conns[c]? = some conn ∧
      w1.l.activeConnections = w.l.activeConnections.filter (fun d => d != c) ∧
      w1.conns = w.conns ∧ w1.raw = closeRaw w.raw conn.Conn ∧
      w1.trace = w.trace ++ [Event.rawClose conn.Conn] := by
  have h0 : w.conns[c]? = some (w.conns.get ⟨c, hc⟩) := List.getElem?_eq_some_iff.mpr ⟨hc, rfl⟩
  have h1 := (hw.2.1 c _ h0).1
  have hcl : limitConn.Close w c res =
      some ({ LimitListener.removeConnection w c with
              raw := closeRaw w.raw (w.conns.get ⟨c, hc⟩).Conn
              trace := w.trace ++ [Event.rawClose (w.conns.get ⟨c, hc⟩).Conn] }, res) := by
    unfold limitConn.Close
    rw [h0]
    simp only [h1]
    rfl
  exact ⟨_, _, hcl, h0, rfl, rfl, rfl, rfl⟩

theorem Close_none_iff (w : World) (c : Nat) (res : Option Error) (hw : WF w) :
    limitConn.Close w c res = none ↔ w.conns.length ≤ c := by
  constructor
  · intro h
    by_contra hlt
    obtain ⟨w1, conn, h1, -⟩ := Close_of_WF w c res hw (not_le.mp hlt)
    rw [h1] at h
    exact absurd h (by simp)
  · intro h
    unfold limitConn.Close
    rw [List.getElem?_eq_none_iff.mpr h]

theorem mem_filter_ne (xs : List Nat) (c d : Nat) :
    d ∈ xs.filter (fun e => e != c) ↔ d ∈ xs ∧ d ≠ c := by
  simp [List.mem_filter]

theorem Accept_of_succeeds (w : World) (env : Accepted) (h : acceptSucceeds env = true) :
    (LimitListener.Accept w env).2 = (some w.conns.length, none) ∧
    (LimitListener.Accept w env).1.conns = w.conns ++
      [{ Conn := w.raw.length
         perConnLimit := NewLimiter w.l.perConnLimit.limit w.l.perConnLimit.burst w.now
         removeFn := some w.conns.length }] ∧
    (LimitListener.Accept w env).1.l.activeConnections =
      w.l.activeConnections.insert w.conns.length := by
  cases env with
  | fail e => simp [acceptSucceeds] at h
  | conn isTCP ka kap =>
    cases isTCP with
    | false => simp [acceptSucceeds] at h
    | true =>
      cases ka with
      | some e => simp [acceptSucceeds] at h
      | none =>
        cases kap with
        | some e => simp [acceptSucceeds] at h
        | none => exact ⟨rfl, rfl, rfl⟩

theorem Accept_of_fails (w : World) (env : Accepted) (h : acceptSucceeds env = false) :
    (LimitListener.Accept w env).2.1 = none ∧ (LimitListener.Accept w env).2.2 ≠ none ∧
    (LimitListener.Accept w env).1.conns = w.conns ∧
    (LimitListener.Accept w env).1.l.activeConnections = w.l.activeConnections := by
  have hne : ∀ e : Error, (some e : Option Error) ≠ none := fun e => by simp
  cases env with
  | fail e => exact ⟨rfl, hne e, rfl, rfl⟩
  | conn isTCP ka kap =>
    cases isTCP with
    | false => exact ⟨rfl, hne _, rfl, rfl⟩
    | true =>
      cases ka with
      | some e => exact ⟨rfl, hne e, rfl, rfl⟩
      | none =>
        cases kap with
        | some e => exact ⟨rfl, hne e, rfl, rfl⟩
        | none => simp [acceptSucceeds] at h

theorem length_step (w : World) (op : Op) :
    (step w op).conns.length = w.conns.length + acceptedCount [op] := by
  cases op with
  | accept env =>
    show (LimitListener.Accept w env).1.conns.length = _
    cases hs : acceptSucceeds env with
    | true =>
      rw [(Accept_of_succeeds w env hs).2.1]
      simp [acceptedCount, hs]
    | false =>
      rw [(Accept_of_fails w env hs).2.2.1]
      simp [acceptedCount, hs]
  | close d res =>
    rcases step_close w d res with ⟨-, h1⟩ | ⟨w1, r, h1, h2⟩
    · rw [h1]; rfl
    · rw [h2]
      obtain ⟨_, _, -, -, -, f2, -⟩ := Close_frame w w1 d res r h1
      rw [f2]; rfl
  | read d b res =>
    rcases step_read w d b res with h1 | ⟨w1, r, h1, h2⟩
    · rw [h1]; rfl
    · rw [h2]
      obtain ⟨_, _, -, -, f3, -⟩ := Read_frame w w1 d b res r h1
      rw [f3, List.length_set]; rfl
  | write d b res =>
    rcases step_write w d b res with h1 | ⟨w1, r, h1, h2⟩
    · rw [h1]; rfl
    · rw [h2]
      obtain ⟨_, _, -, -, f3, -⟩ := Write_frame w w1 d b res r h1
      rw [f3, List.length_set]; rfl
  | setLimit p g =>
    show (w.l.activeConnections.foldl (setConnLimit w.now p) w.conns).length = _
    rw [length_foldl_setConnLimit]; rfl
  | tick d => rfl

theorem acceptedCount_cons (op : Op) (ops : List Op) :
    acceptedCount (op :: ops) = acceptedCount [op] + acceptedCount ops := by
  cases op <;> simp [acceptedCount]

theorem length_run (ops : List Op) :
    ∀ w : World, (run w ops).conns.length = w.conns.length + acceptedCount ops := by
  induction ops with
  | nil => intro w; rfl
  | cons op ops ih =>
    intro w
    show (run (step w op) ops).conns.length = _
    rw [ih, length_step, acceptedCount_cons op ops]
    omega

theorem run_active (ops : List Op) :
    ∀ (w : World) (acc : List Nat), WF w →
      (∀ c, c ∈ w.l.activeConnections ↔ c ∈ acc) →
      ∀ c, c ∈ (run w ops).l.activeConnections ↔
        c ∈ acceptedNotClosed w.conns.length acc ops := by
  induction ops with
  | nil => intro w acc _ h c; exact h c
  | cons op ops ih =>
    intro w acc hw h
    have hw1 := WF_step w op hw
    have hlen := length_step w op
    cases op with
    | accept env =>
      cases hs : acceptSucceeds env with
      | false =>
        have e : acceptedNotClosed w.conns.length acc (Op.accept env :: ops) =
            acceptedNotClosed (step w (Op.accept env)).conns.length acc ops := by
          rw [hlen]
          simp [acceptedNotClosed, acceptedCount, hs]
        rw [e]
        apply ih _ _ hw1
        intro c
        show c ∈ (LimitListener.Accept w env).1.l.activeConnections ↔ c ∈ acc
        rw [(Accept_of_fails w env hs).2.2.2]; exact h c
      | true =>
        have e : acceptedNotClosed w.conns.length acc (Op.accept env :: ops) =
            acceptedNotClosed (step w (Op.accept env)).conns.length
              (w.conns.length :: acc) ops := by
          rw [hlen]
          simp [acceptedNotClosed, acceptedCount, hs]
        rw [e]
        apply ih _ _ hw1
        intro c
        show c ∈ (LimitListener.Accept w env).1.l.activeConnections ↔ c ∈ w.conns.length :: acc
        rw [(Accept_of_succeeds w env hs).2.2, List.mem_insert_iff, List.mem_cons, h c]
    | close d res =>
      have e : acceptedNotClosed w.conns.length acc (Op.close d res :: ops) =
          acceptedNotClosed (step w (Op.close d res)).conns.length
            (acc.filter (fun x => x != d)) ops := by
        rw [hlen]; rfl
      rw [e]
      apply ih _ _ hw1
      intro c
      rw [mem_filter_ne]
      rcases step_close w d res with ⟨h1, h2⟩ | ⟨w1, r, h1, h2⟩
      · rw [h2, h c]
        have hle := (Close_none_iff w d res hw).mp h1
        constructor
        · intro hm
          refine ⟨hm, ?_⟩
          intro hcd
          have := hw.1 c ((h c).mpr hm)
          omega
        · exact fun hm => hm.1
      · rw [h2]
        obtain ⟨conn, tc, f1, f2, f3, -⟩ := Close_frame w w1 d res r h1
        have htc : tc = d := by
          have := (hw.2.1 d conn f1).1
          rw [f2] at this
          exact Option.some.inj this
        rw [f3, htc, mem_filter_ne, h c]
    | read d b res =>
      have e : acceptedNotClosed w.conns.length acc (Op.read d b res :: ops) =
          acceptedNotClosed (step w (Op.read d b res)).conns.length acc ops := by
        rw [hlen]; rfl
      rw [e]
      apply ih _ _ hw1
      intro c
      rcases step_read w d b res with h1 | ⟨w1, r, h1, h2⟩
      · rw [h1]; exact h c
      · rw [h2]
        obtain ⟨_, _, -, -, -, f4, -⟩ := Read_frame w w1 d b res r h1
        rw [f4]; exact h c
    | write d b res =>
      have e : acceptedNotClosed w.conns.length acc (Op.write d b res :: ops) =
          acceptedNotClosed (step w (Op.write d b res)).conns.length acc ops := by
        rw [hlen]; rfl
      rw [e]
      apply ih _ _ hw1
      intro c
      rcases step_write w d b res with h1 | ⟨w1, r, h1, h2⟩
      · rw [h1]; exact h c
      · rw [h2]
        obtain ⟨_, _, -, -, -, f4, -⟩ := Write_frame w w1 d b res r h1
        rw [f4]; exact h c
    | setLimit p g =>
      have e : acceptedNotClosed w.conns.length acc (Op.setLimit p g :: ops) =
          acceptedNotClosed (step w (Op.setLimit p g)).conns.length acc ops := by
        rw [hlen]; rfl
      rw [e]
      exact ih _ _ hw1 h
    | tick d =>
      have e : acceptedNotClosed w.conns.length acc (Op.tick d :: ops) =
          acceptedNotClosed (step w (Op.tick d)).conns.length acc ops := by
        rw [hlen]; rfl
      rw [e]
      exact ih _ _ hw1 h

theorem gated_Read_Write (w : World) (c : Nat) (conn : limitConn) (b : List Byte)
    (res : Nat × Option Error) (hc : w.conns[c]? = some conn) (hb : b ≠ []) :
    Gated limitConn.Read Event.connRead w c conn b res ∧
      Gated limitConn.Write Event.connWrite w c conn b res := by
  have hpos : b.length > 0 := List.length_pos.mpr hb
  have hlen : (w.conns.set c conn) = w.conns := set_same _ _ _ hc
  have hg := WaitN_of_le w.l.globalLimit w.now b.length
  refine ⟨⟨?_, ?_, ?_⟩, ⟨?_, ?_, ?_⟩⟩
  · intro h
    refine ⟨{ w with trace := w.trace ++ [Event.waitGlobal b.length] }, ?_, rfl, rfl, rfl⟩
    simp only [limitConn.Read, hc, hpos, if_true, WaitN_of_gt _ _ _ h]
  · intro h1 h2
    refine ⟨{ w with l := { w.l with globalLimit := (w.l.globalLimit.WaitN w.now b.length).1 }
                     now := (w.l.globalLimit.WaitN w.now b.length).2.1
                     trace := w.trace ++ [Event.waitGlobal b.length, Event.waitPerConn c b.length] },
      ?_, rfl, rfl, rfl⟩
    simp only [limitConn.Read, hc, hpos, if_true, hg h1, WaitN_of_gt _ _ _ h2, hlen,
      List.append_assoc, List.singleton_append]
  · intro h1 h2
    refine ⟨{ w with
        l := { w.l with globalLimit := (w.l.globalLimit.WaitN w.now b.length).1 }
        conns := w.conns.set c { conn with
          perConnLimit :=
            (conn.perConnLimit.WaitN (w.l.globalLimit.WaitN w.now b.length).2.1 b.length).1 }
        now := (conn.perConnLimit.WaitN (w.l.globalLimit.WaitN w.now b.length).2.1 b.length).2.1
        trace := w.trace ++
          [Event.waitGlobal b.length, Event.waitPerConn c b.length, Event.connRead c b.length] },
      ?_, rfl, rfl, ?_⟩
    · simp only [limitConn.Read, hc, hpos, if_true, hg h1, WaitN_of_le _ _ _ h2,
        List.append_assoc, List.singleton_append]
      rfl
    · simp only [getElem?_set_of_some _ _ _ _ _ hc, if_true]
  · intro h
    refine ⟨{ w with trace := w.trace ++ [Event.waitGlobal b.length] }, ?_, rfl, rfl, rfl⟩
    simp only [limitConn.Write, hc, WaitN_of_gt _ _ _ h]
  · intro h1 h2
    refine ⟨{ w with l := { w.l with globalLimit := (w.l.globalLimit.WaitN w.now b.length).1 }
                     now := (w.l.globalLimit.WaitN w.now b.length).2.1
                     trace := w.trace ++ [Event.waitGlobal b.length, Event.waitPerConn c b.length] },
      ?_, rfl, rfl, rfl⟩
    simp only [limitConn.Write, hc, hg h1, WaitN_of_gt _ _ _ h2, hlen,
      List.append_assoc, List.singleton_append]
  · intro h1 h2
    refine ⟨{ w with
        l := { w.l with globalLimit := (w.l.globalLimit.WaitN w.now b.length).1 }
        conns := w.conns.set c { conn with
          perConnLimit :=
            (conn.perConnLimit.WaitN (w.l.globalLimit.WaitN w.now b.length).2.1 b.length).1 }
        now := (conn.perConnLimit.WaitN (w.l.globalLimit.WaitN w.now b.length).2.1 b.length).2.1
        trace := w.trace ++
          [Event.waitGlobal b.length, Event.waitPerConn c b.length, Event.connWrite c b.length] },
      ?_, rfl, rfl, ?_⟩
    · simp only [limitConn.Write, hc, hg h1, WaitN_of_le _ _ _ h2,
        List.append_assoc, List.singleton_append]
      rfl
    · simp only [getElem?_set_of_some _ _ _ _ _ hc, if_true]

theorem WaitN_tokens (lim : Limiter) (t : ℚ) (n : Nat) (h1 : (n : Int) ≤ lim.burst)
    (h2 : lim.limit ≠ 0) :
    (lim.WaitN t n).1.tokens = lim.advance t - n ∧ (lim.WaitN t n).1.last = t ∧
      (lim.WaitN t n).1.burst = lim.burst := by
  have h3 : ¬ lim.burst < (n : Int) := not_lt.mpr h1
  unfold Limiter.WaitN
  rw [if_neg h3, if_neg h2]
  exact ⟨rfl, rfl, rfl⟩

theorem connClosed_Close (w w1 : World) (c : Nat) (res r : Option Error) (hw : WF w)
    (h : limitConn.Close w c res = some (w1, r)) : connClosed w1 c = true := by
  obtain ⟨conn, tc, f1, -, -, f2, f3, -⟩ := Close_frame w w1 c res r h
  have hlt := (hw.2.1 c conn f1).2.1
  rw [connClosed_iff]
  refine ⟨conn, { (w.raw.get ⟨conn.Conn, hlt⟩) with closed := true }, by rw [f2]; exact f1, ?_, rfl⟩
  rw [f3, getElem?_closeRaw, if_pos rfl,
    List.getElem?_eq_some_iff.mpr ⟨hlt, (rfl : w.raw[conn.Conn] = w.raw.get ⟨conn.Conn, hlt⟩)⟩]
  rfl

theorem SetLimit_installs (w : World) (p g : Int) :
    (LimitListener.SetLimit w p g).l.globalLimit.limit = g ∧
    (LimitListener.SetLimit w p g).l.globalLimit.burst = g ∧
    (LimitListener.SetLimit w p g).l.perConnLimit.limit = p ∧
    (LimitListener.SetLimit w p g).l.perConnLimit.burst = p ∧
    ∀ c ∈ (LimitListener.SetLimit w p g).l.activeConnections, ∀ conn : limitConn,
      (LimitListener.SetLimit w p g).conns[c]? = some conn →
        conn.perConnLimit.limit = p ∧ conn.perConnLimit.burst = p := by
  refine ⟨rfl, rfl, rfl, rfl, ?_⟩
  intro c hc conn1 hc1
  have hc2 : (w.l.activeConnections.foldl (setConnLimit w.now p) w.conns)[c]? = some conn1 := hc1
  have hc3 : c ∈ w.l.activeConnections := hc
  cases hcc : w.conns[c]? with
  | none =>
    rw [(foldl_setConnLimit w.now p w.l.activeConnections w.conns c).1 hcc] at hc2
    exact absurd hc2 (by simp)
  | some conn =>
    obtain ⟨conn2, h1, -, -, -, h5⟩ :=
      (foldl_setConnLimit w.now p w.l.activeConnections w.conns c).2 conn hcc
    rw [h1] at hc2
    simp only [Option.some.injEq] at hc2
    subst hc2
    exact h5 hc3

/-! ## Token accounting -/

theorem advance_le_burst (lim : Limiter) (t : ℚ) : lim.advance t ≤ lim.burst := by
  unfold Limiter.advance
  exact min_le_right _ _

theorem avail_nonneg (lim : Limiter) (t : ℚ) : 0 ≤ avail lim t :=
  le_max_right _ _

theorem avail_le_burst (lim : Limiter) (t : ℚ) (h : 0 ≤ lim.burst) :
    avail lim t ≤ lim.burst := by
  unfold avail
  exact max_le (advance_le_burst lim t) (by exact_mod_cast h)

theorem elapsed_le (last t t1 : ℚ) (h : t ≤ t1) :
    t1 - min last t1 ≤ (t - min last t) + (t1 - t) ∧ 0 ≤ t - min last t := by
  rcases le_total last t with h1 | h1
  · rw [min_eq_left h1, min_eq_left (le_trans h1 h)]
    constructor <;> linarith
  · rw [min_eq_right h1]
    rcases le_total last t1 with h2 | h2
    · rw [min_eq_left h2]
      constructor <;> linarith
    · rw [min_eq_right h2]
      constructor <;> linarith

theorem avail_mono_time (lim : Limiter) (t t1 : ℚ) (ht : t ≤ t1) (hl : 0 ≤ lim.limit) :
    avail lim t1 ≤ avail lim t + lim.limit * (t1 - t) := by
  have hlq : (0 : ℚ) ≤ (lim.limit : ℚ) := by exact_mod_cast hl
  have hstep : 0 ≤ (lim.limit : ℚ) * (t1 - t) := mul_nonneg hlq (by linarith)
  obtain ⟨he, he0⟩ := elapsed_le lim.last t t1 ht
  unfold avail Limiter.advance
  by_cases h0 : lim.limit ≤ 0
  · simp only [h0, if_true]
    linarith
  · simp only [h0, if_false]
    have hmul : (t1 - min lim.last t1) * (lim.limit : ℚ) ≤
        (t - min lim.last t) * lim.limit + lim.limit * (t1 - t) := by
      nlinarith
    apply max_le
    · have h1 : min (lim.tokens + (t1 - min lim.last t1) * (lim.limit : ℚ)) (lim.burst : ℚ) ≤
          min (lim.tokens + (t - min lim.last t) * (lim.limit : ℚ)) (lim.burst : ℚ) +
            lim.limit * (t1 - t) := by
        rcases le_total (lim.tokens + (t - min lim.last t) * (lim.limit : ℚ)) (lim.burst : ℚ)
          with h2 | h2
        · rw [min_eq_left h2]
          exact le_trans (min_le_left _ _) (by linarith)
        · rw [min_eq_right h2]
          exact le_trans (min_le_right _ _) (by linarith)
      exact le_trans h1 (add_le_add_right (le_max_left _ _) _)
    · exact add_nonneg (le_max_right _ _) hstep

theorem InfDuration_nonneg : 0 ≤ InfDuration := by
  unfold InfDuration
  norm_num

theorem WaitN_wake_ge (lim : Limiter) (t : ℚ) (n : Nat) : t ≤ (lim.WaitN t n).2.1 := by
  unfold Limiter.WaitN
  by_cases h1 : (n : Int) > lim.burst
  · simp [h1]
  · by_cases h2 : lim.limit = 0
    · simp [h1, h2]
    · simp only [h1, h2, if_false]
      by_cases h3 : lim.advance t - (n : ℚ) < 0
      · by_cases h4 : lim.limit ≤ 0
        · simp only [h3, h4, if_true]
          linarith [InfDuration_nonneg]
        · simp only [h3, h4, if_true, if_false]
          have hpos : (0 : ℚ) < (lim.limit : ℚ) := by
            have : 0 < lim.limit := by omega
            exact_mod_cast this
          have : 0 ≤ -(lim.advance t - (n : ℚ)) / (lim.limit : ℚ) :=
            div_nonneg (by linarith) hpos.le
          linarith
      · simp only [h3, if_false]
        linarith

theorem avail_WaitN (lim : Limiter) (t : ℚ) (n : Nat) (hb : lim.burst = lim.limit)
    (hl : 0 ≤ lim.limit) (hn : (n : Int) ≤ lim.burst) :
    (n : ℚ) + avail (lim.WaitN t n).1 (lim.WaitN t n).2.1 ≤
      avail lim t + lim.limit * ((lim.WaitN t n).2.1 - t) := by
  have h1 : ¬ (n : Int) > lim.burst := not_lt.mpr hn
  by_cases h2 : lim.limit = 0
  · have hn0 : n = 0 := by omega
    subst hn0
    have e1 : (lim.WaitN t 0).1 = lim := by
      unfold Limiter.WaitN
      rw [if_neg h1, if_pos h2]
      cases lim
      simp
    have e2 : (lim.WaitN t 0).2.1 = t := by
      unfold Limiter.WaitN
      rw [if_neg h1, if_pos h2]
    rw [e1, e2]
    simp
  · have hpos : 0 < lim.limit := by omega
    have hposq : (0 : ℚ) < (lim.limit : ℚ) := by exact_mod_cast hpos
    have hbq : (lim.burst : ℚ) = (lim.limit : ℚ) := by exact_mod_cast hb
    have ha := advance_le_burst lim t
    have hnl : ¬ lim.limit ≤ 0 := by omega
    by_cases h3 : lim.advance t - (n : ℚ) < 0
    · have e : lim.WaitN t n =
          ({ lim with tokens := lim.advance t - n, last := t },
            t + -(lim.advance t - (n : ℚ)) / (lim.limit : ℚ), none) := by
        unfold Limiter.WaitN
        simp only [h1, h2, h3, hnl, if_false, if_true]
      rw [e]
      have hw : 0 ≤ -(lim.advance t - (n : ℚ)) / (lim.limit : ℚ) :=
        div_nonneg (by linarith) hposq.le
      have hmul : (-(lim.advance t - (n : ℚ)) / (lim.limit : ℚ)) * (lim.limit : ℚ) =
          -(lim.advance t - (n : ℚ)) := div_mul_cancel₀ _ (ne_of_gt hposq)
      have hav : avail { lim with tokens := lim.advance t - n, last := t }
          (t + -(lim.advance t - (n : ℚ)) / (lim.limit : ℚ)) = 0 := by
        show max (min (lim.advance t - (n : ℚ) +
          (if lim.limit ≤ 0 then 0 else
            (t + -(lim.advance t - (n : ℚ)) / (lim.limit : ℚ) -
              min t (t + -(lim.advance t - (n : ℚ)) / (lim.limit : ℚ))) * (lim.limit : ℚ)))
          (lim.burst : ℚ)) 0 = 0
        simp only [hnl, if_false]
        rw [min_eq_left (by linarith : t ≤ t + -(lim.advance t - (n : ℚ)) / (lim.limit : ℚ))]
        have : lim.advance t - (n : ℚ) +
            (t + -(lim.advance t - (n : ℚ)) / (lim.limit : ℚ) - t) * (lim.limit : ℚ) = 0 := by
          have : (t + -(lim.advance t - (n : ℚ)) / (lim.limit : ℚ) - t) =
              -(lim.advance t - (n : ℚ)) / (lim.limit : ℚ) := by ring
          rw [this, hmul]; ring
        rw [this, min_eq_left (by rw [hbq]; exact hposq.le)]
        simp
      rw [hav]
      have h5 : (lim.limit : ℚ) * (t + -(lim.advance t - (n : ℚ)) / (lim.limit : ℚ) - t) =
          -(lim.advance t - (n : ℚ)) := by
        have : (t + -(lim.advance t - (n : ℚ)) / (lim.limit : ℚ) - t) =
            -(lim.advance t - (n : ℚ)) / (lim.limit : ℚ) := by ring
        rw [this, mul_comm, hmul]
      show (n : ℚ) + 0 ≤ avail lim t + _
      rw [h5]
      have := le_max_left (lim.advance t) 0
      unfold avail
      linarith
    · have e : lim.WaitN t n =
          ({ lim with tokens := lim.advance t - n, last := t }, t + 0, none) := by
        unfold Limiter.WaitN
        simp only [h1, h2, h3, if_false]
      rw [e]
      have hav : avail { lim with tokens := lim.advance t - n, last := t } (t + 0) =
          lim.advance t - n := by
        unfold avail
        have : Limiter.advance { lim with tokens := lim.advance t - n, last := t } (t + 0) =
            lim.advance t - n := by
          show min (lim.advance t - (n : ℚ) +
            (if lim.limit ≤ 0 then 0 else (t + 0 - min t (t + 0)) * (lim.limit : ℚ)))
            (lim.burst : ℚ) = _
          simp only [hnl, if_false, add_zero, min_self, sub_self, zero_mul]
          exact min_eq_left (by linarith [(Nat.cast_nonneg n : (0 : ℚ) ≤ (n : ℚ))])
        rw [this]
        exact max_eq_left (by linarith)
      rw [hav]
      have := le_max_left (lim.advance t) 0
      unfold avail
      simp only [add_zero, sub_self, mul_zero]
      linarith

/-! ## Healthy limiters -/

theorem Read_shape (w : World) (c : Nat) (conn : limitConn) (b : List Byte)
    (res : Nat × Option Error) (hc : w.conns[c]? = some conn) :
    ∃ w1 r, limitConn.Read w c b res = some (w1, r) ∧
      CallShape w w1 c conn b.length (Event.connRead c b.length) := by
  have hlen : (w.conns.set c conn) = w.conns := set_same _ _ _ hc
  have hg := WaitN_of_le w.l.globalLimit w.now b.length
  by_cases hpos : b.length > 0
  · by_cases h1 : w.l.globalLimit.burst < (b.length : Int)
    · refine ⟨{ w with trace := w.trace ++ [Event.waitGlobal b.length] },
        (0, some (Error.exceedsBurst b.length w.l.globalLimit.burst)), ?_,
        Or.inr (Or.inl ⟨h1, rfl⟩)⟩
      simp only [limitConn.Read, hc, hpos, if_true, WaitN_of_gt _ _ _ h1]
    · have h1 := not_lt.mp h1
      by_cases h2 : conn.perConnLimit.burst < (b.length : Int)
      · refine ⟨{ w with
          l := { w.l with globalLimit := (w.l.globalLimit.WaitN w.now b.length).1 }
          now := (w.l.globalLimit.WaitN w.now b.length).2.1
          trace := w.trace ++ [Event.waitGlobal b.length, Event.waitPerConn c b.length] },
          (0, some (Error.exceedsBurst b.length conn.perConnLimit.burst)), ?_,
          Or.inr (Or.inr (Or.inl ⟨h1, h2, rfl⟩))⟩
        simp only [limitConn.Read, hc, hpos, if_true, hg h1, WaitN_of_gt _ _ _ h2, hlen,
          List.append_assoc, List.singleton_append]
      · have h2 := not_lt.mp h2
        refine ⟨{ w with
          l := { w.l with globalLimit := (w.l.globalLimit.WaitN w.now b.length).1 }
          conns := w.conns.set c { conn with
            perConnLimit :=
              (conn.perConnLimit.WaitN (w.l.globalLimit.WaitN w.now b.length).2.1 b.length).1 }
          now := (conn.perConnLimit.WaitN (w.l.globalLimit.WaitN w.now b.length).2.1 b.length).2.1
          trace := w.trace ++
            [Event.waitGlobal b.length, Event.waitPerConn c b.length, Event.connRead c b.length] },
          res, ?_,
          Or.inr (Or.inr (Or.inr ⟨h1, h2, rfl⟩))⟩
        simp only [limitConn.Read, hc, hpos, if_true, hg h1, WaitN_of_le _ _ _ h2,
          List.append_assoc, List.singleton_append]
        rfl
  · refine ⟨{ w with trace := w.trace ++ [Event.connRead c b.length] }, res, ?_,
      Or.inl ⟨by omega, rfl⟩⟩
    simp only [limitConn.Read, hc, hpos, if_false]

theorem Write_shape (w : World) (c : Nat) (conn : limitConn) (b : List Byte)
    (res : Nat × Option Error) (hc : w.conns[c]? = some conn) :
    ∃ w1 r, limitConn.Write w c b res = some (w1, r) ∧
      CallShape w w1 c conn b.length (Event.connWrite c b.length) := by
  have hlen : (w.conns.set c conn) = w.conns := set_same _ _ _ hc
  have hg := WaitN_of_le w.l.globalLimit w.now b.length
  by_cases h1 : w.l.globalLimit.burst < (b.length : Int)
  · refine ⟨{ w with trace := w.trace ++ [Event.waitGlobal b.length] },
      (0, some (Error.exceedsBurst b.length w.l.globalLimit.burst)), ?_,
      Or.inr (Or.inl ⟨h1, rfl⟩)⟩
    simp only [limitConn.Write, hc, WaitN_of_gt _ _ _ h1]
  · have h1 := not_lt.mp h1
    by_cases h2 : conn.perConnLimit.burst < (b.length : Int)
    · refine ⟨{ w with
          l := { w.l with globalLimit := (w.l.globalLimit.WaitN w.now b.length).1 }
          now := (w.l.globalLimit.WaitN w.now b.length).2.1
          trace := w.trace ++ [Event.waitGlobal b.length, Event.waitPerConn c b.length] },
          (0, some (Error.exceedsBurst b.length conn.perConnLimit.burst)), ?_,
          Or.inr (Or.inr (Or.inl ⟨h1, h2, rfl⟩))⟩
      simp only [limitConn.Write, hc, hg h1, WaitN_of_gt _ _ _ h2, hlen,
        List.append_assoc, List.singleton_append]
    · have h2 := not_lt.mp h2
      refine ⟨{ w with
          l := { w.l with globalLimit := (w.l.globalLimit.WaitN w.now b.length).1 }
          conns := w.conns.set c { conn with
            perConnLimit :=
              (conn.perConnLimit.WaitN (w.l.globalLimit.WaitN w.now b.length).2.1 b.length).1 }
          now := (conn.perConnLimit.WaitN (w.l.globalLimit.WaitN w.now b.length).2.1 b.length).2.1
          trace := w.trace ++
            [Event.waitGlobal b.length, Event.waitPerConn c b.length, Event.connWrite c b.length] },
          res, ?_,
          Or.inr (Or.inr (Or.inr ⟨h1, h2, rfl⟩))⟩
      simp only [limitConn.Write, hc, hg h1, WaitN_of_le _ _ _ h2,
        List.append_assoc, List.singleton_append]
      rfl

theorem admittedBytes_append (tr evs : List Event) :
    admittedBytes (tr ++ evs) = admittedBytes tr + admittedBytes evs := by
  simp [admittedBytes, List.map_append, List.sum_append]

theorem admittedBytesOf_append (c : Nat) (tr evs : List Event) :
    admittedBytesOf c (tr ++ evs) = admittedBytesOf c tr + admittedBytesOf c evs := by
  simp [admittedBytesOf, List.map_append, List.sum_append]

theorem admittedBytesOf_le (c : Nat) (tr : List Event) :
    admittedBytesOf c tr ≤ admittedBytes tr := by
  induction tr with
  | nil => simp [admittedBytesOf, admittedBytes]
  | cons e tr ih =>
    have h : Event.bytesOf c e ≤ Event.bytes e := by
      cases e <;> simp [Event.bytesOf, Event.bytes] <;> split_ifs <;> omega
    simp only [admittedBytesOf, admittedBytes, List.map_cons, List.sum_cons] at ih ⊢
    omega

/-- The account of the global limiter over a step from `w` to `w1`: the bytes admitted
plus the tokens left are paid for by the tokens there were plus the refill. -/
theorem shape_global (w w1 : World) (c : Nat) (conn : limitConn) (n : Nat) (ev : Event)
    (hs : CallShape w w1 c conn n ev)
    (hev : ev = Event.connRead c n ∨ ev = Event.connWrite c n)
    (hw : WF w) (hg : 0 ≤ w.l.globalLimit.limit) :
    w1.l.globalLimit.limit = w.l.globalLimit.limit ∧ w.now ≤ w1.now ∧
    (admittedBytes w1.trace : ℚ) + avail w1.l.globalLimit w1.now ≤
      admittedBytes w.trace + avail w.l.globalLimit w.now +
        w.l.globalLimit.limit * (w1.now - w.now) := by
  have hevb : admittedBytes [ev] = n := by
    rcases hev with h | h <;> subst h <;> simp [admittedBytes, Event.bytes]
  have hb := hw.2.2.2
  rcases hs with ⟨h0, rfl⟩ | ⟨-, rfl⟩ | ⟨h1, -, rfl⟩ | ⟨h1, h2, rfl⟩
  · refine ⟨rfl, le_refl _, ?_⟩
    show ((admittedBytes (w.trace ++ [ev]) : Nat) : ℚ) + avail w.l.globalLimit w.now ≤ _
    rw [admittedBytes_append, hevb, h0]
    simp
  · refine ⟨rfl, le_refl _, ?_⟩
    show ((admittedBytes (w.trace ++ [Event.waitGlobal n]) : Nat) : ℚ) +
      avail w.l.globalLimit w.now ≤ _
    rw [admittedBytes_append]
    simp [admittedBytes, Event.bytes]
  · have hpay := avail_WaitN w.l.globalLimit w.now n hb hg h1
    refine ⟨WaitN_limit _ _ _, WaitN_wake_ge _ _ _, ?_⟩
    show ((admittedBytes (w.trace ++ [Event.waitGlobal n, Event.waitPerConn c n]) : Nat) : ℚ) +
      avail (w.l.globalLimit.WaitN w.now n).1 (w.l.globalLimit.WaitN w.now n).2.1 ≤
      admittedBytes w.trace + avail w.l.globalLimit w.now +
        w.l.globalLimit.limit * ((w.l.globalLimit.WaitN w.now n).2.1 - w.now)
    rw [admittedBytes_append]
    have : admittedBytes [Event.waitGlobal n, Event.waitPerConn c n] = 0 := by
      simp [admittedBytes, Event.bytes]
    rw [this]
    have hn0 : (0 : ℚ) ≤ (n : ℚ) := Nat.cast_nonneg n
    push_cast
    linarith
  · have hpay := avail_WaitN w.l.globalLimit w.now n hb hg h1
    have hge1 := WaitN_wake_ge w.l.globalLimit w.now n
    have hge2 := WaitN_wake_ge conn.perConnLimit (w.l.globalLimit.WaitN w.now n).2.1 n
    have hl1 : (w.l.globalLimit.WaitN w.now n).1.limit = w.l.globalLimit.limit :=
      WaitN_limit _ _ _
    have hmono := avail_mono_time (w.l.globalLimit.WaitN w.now n).1
      (w.l.globalLimit.WaitN w.now n).2.1
      (conn.perConnLimit.WaitN (w.l.globalLimit.WaitN w.now n).2.1 n).2.1 hge2
      (by rw [hl1]; exact hg)
    rw [hl1] at hmono
    refine ⟨hl1, le_trans hge1 hge2, ?_⟩
    show ((admittedBytes (w.trace ++
        [Event.waitGlobal n, Event.waitPerConn c n, ev]) : Nat) : ℚ) +
      avail (w.l.globalLimit.WaitN w.now n).1
        (conn.perConnLimit.WaitN (w.l.globalLimit.WaitN w.now n).2.1 n).2.1 ≤
      admittedBytes w.trace + avail w.l.globalLimit w.now +
        w.l.globalLimit.limit *
          ((conn.perConnLimit.WaitN (w.l.globalLimit.WaitN w.now n).2.1 n).2.1 - w.now)
    rw [admittedBytes_append]
    have : admittedBytes [Event.waitGlobal n, Event.waitPerConn c n, ev] = n := by
      have : [Event.waitGlobal n, Event.waitPerConn c n, ev] =
          [Event.waitGlobal n, Event.waitPerConn c n] ++ [ev] := rfl
      rw [this, admittedBytes_append, hevb]
      simp [admittedBytes, Event.bytes]
    rw [this]
    push_cast
    linarith

theorem connAvail_mono (w w1 : World) (d : Nat) (h1 : w1.conns[d]? = w.conns[d]?)
    (h2 : w1.l.perConnLimit = w.l.perConnLimit) (ht : w.now ≤ w1.now)
    (hq : 0 ≤ connRate w d) :
    connRate w1 d = connRate w d ∧
      connAvail w1 d ≤ connAvail w d + connRate w d * (w1.now - w.now) := by
  unfold connRate connAvail at *
  rw [h1, h2]
  cases hd : w.conns[d]? with
  | none =>
    rw [hd] at hq
    refine ⟨rfl, ?_⟩
    have hq2 : (0 : ℚ) ≤ (w.l.perConnLimit.limit : ℚ) := by exact_mod_cast hq
    have : 0 ≤ (w.l.perConnLimit.limit : ℚ) * (w1.now - w.now) :=
      mul_nonneg hq2 (by linarith)
    show max (w.l.perConnLimit.burst : ℚ) 0 ≤ max (w.l.perConnLimit.burst : ℚ) 0 + _
    linarith
  | some conn =>
    rw [hd] at hq
    exact ⟨rfl, avail_mono_time conn.perConnLimit w.now w1.now ht hq⟩

/-- The account of the limiter of connection `d` over a `Read` or `Write` on
connection `c`. -/
theorem shape_conn (w w1 : World) (c d : Nat) (conn : limitConn) (n : Nat) (ev : Event)
    (hs : CallShape w w1 c conn n ev)
    (hev : ev = Event.connRead c n ∨ ev = Event.connWrite c n)
    (hc : w.conns[c]? = some conn) (hw : WF w) (hq : 0 ≤ connRate w d) :
    connRate w1 d = connRate w d ∧
    (admittedBytesOf d w1.trace : ℚ) + connAvail w1 d ≤
      admittedBytesOf d w.trace + connAvail w d + connRate w d * (w1.now - w.now) := by
  have hevb : admittedBytesOf d [ev] = if c = d then n else 0 := by
    rcases hev with h | h <;> subst h <;> simp [admittedBytesOf, Event.bytesOf]
  have hw0 : admittedBytesOf d [Event.waitGlobal n] = 0 := by
    simp [admittedBytesOf, Event.bytesOf]
  have hw2 : admittedBytesOf d [Event.waitGlobal n, Event.waitPerConn c n] = 0 := by
    simp [admittedBytesOf, Event.bytesOf]
  have hw3 : admittedBytesOf d [Event.waitGlobal n, Event.waitPerConn c n, ev] =
      if c = d then n else 0 := by
    have : [Event.waitGlobal n, Event.waitPerConn c n, ev] =
        [Event.waitGlobal n, Event.waitPerConn c n] ++ [ev] := rfl
    rw [this, admittedBytesOf_append, hevb, hw2]
    simp
  rcases hs with ⟨h0, rfl⟩ | ⟨-, rfl⟩ | ⟨h1, -, rfl⟩ | ⟨h1, h2, rfl⟩
  · obtain ⟨a1, a2⟩ := connAvail_mono w { w with trace := w.trace ++ [ev] } d rfl rfl
      (le_refl _) hq
    refine ⟨a1, ?_⟩
    show ((admittedBytesOf d (w.trace ++ [ev]) : Nat) : ℚ) + _ ≤ _
    rw [admittedBytesOf_append, hevb, h0]
    have : (if c = d then 0 else 0 : Nat) = 0 := by split_ifs <;> rfl
    rw [this]
    push_cast
    linarith
  · obtain ⟨a1, a2⟩ := connAvail_mono w
      { w with trace := w.trace ++ [Event.waitGlobal n] } d rfl rfl (le_refl _) hq
    refine ⟨a1, ?_⟩
    show ((admittedBytesOf d (w.trace ++ [Event.waitGlobal n]) : Nat) : ℚ) + _ ≤ _
    rw [admittedBytesOf_append, hw0]
    push_cast
    linarith
  · obtain ⟨a1, a2⟩ := connAvail_mono w
      { w with
        l := { w.l with globalLimit := (w.l.globalLimit.WaitN w.now n).1 }
        now := (w.l.globalLimit.WaitN w.now n).2.1
        trace := w.trace ++ [Event.waitGlobal n, Event.waitPerConn c n] } d rfl rfl
      (WaitN_wake_ge _ _ _) hq
    refine ⟨a1, ?_⟩
    show ((admittedBytesOf d (w.trace ++
      [Event.waitGlobal n, Event.waitPerConn c n]) : Nat) : ℚ) + _ ≤ _
    rw [admittedBytesOf_append, hw2]
    push_cast
    linarith
  · have hge1 := WaitN_wake_ge w.l.globalLimit w.now n
    have hge2 := WaitN_wake_ge conn.perConnLimit (w.l.globalLimit.WaitN w.now n).2.1 n
    by_cases hcd : c = d
    · subst hcd
      have hrate : connRate w c = conn.perConnLimit.limit := by
        unfold connRate; rw [hc]
      have hav : connAvail w c = avail conn.perConnLimit w.now := by
        unfold connAvail; rw [hc]
      have hq2 : 0 ≤ conn.perConnLimit.limit := hrate ▸ hq
      have hbl := (hw.2.1 c conn hc).2.2
      have hpay := avail_WaitN conn.perConnLimit (w.l.globalLimit.WaitN w.now n).2.1 n hbl hq2 h2
      have hmono := avail_mono_time conn.perConnLimit w.now
        (w.l.globalLimit.WaitN w.now n).2.1 hge1 hq2
      have hget : (w.conns.set c { conn with
          perConnLimit :=
            (conn.perConnLimit.WaitN (w.l.globalLimit.WaitN w.now n).2.1 n).1 })[c]? =
          some { conn with
            perConnLimit :=
              (conn.perConnLimit.WaitN (w.l.globalLimit.WaitN w.now n).2.1 n).1 } := by
        rw [getElem?_set_of_some _ _ _ _ _ hc, if_pos rfl]
      constructor
      · unfold connRate
        rw [hc]
        simp only [hget]
        exact WaitN_limit _ _ _
      · rw [hrate, hav]
        unfold connAvail
        simp only [hget]
        show ((admittedBytesOf c (w.trace ++
            [Event.waitGlobal n, Event.waitPerConn c n, ev]) : Nat) : ℚ) +
          avail (conn.perConnLimit.WaitN (w.l.globalLimit.WaitN w.now n).2.1 n).1
            (conn.perConnLimit.WaitN (w.l.globalLimit.WaitN w.now n).2.1 n).2.1 ≤
          admittedBytesOf c w.trace + avail conn.perConnLimit w.now +
            conn.perConnLimit.limit *
              ((conn.perConnLimit.WaitN (w.l.globalLimit.WaitN w.now n).2.1 n).2.1 - w.now)
        rw [admittedBytesOf_append, hw3, if_pos rfl]
        push_cast
        linarith
    · have hget : (w.conns.set c { conn with
          perConnLimit :=
            (conn.perConnLimit.WaitN (w.l.globalLimit.WaitN w.now n).2.1 n).1 })[d]? =
          w.conns[d]? := by
        rw [getElem?_set_of_some _ _ _ _ _ hc, if_neg (fun e => hcd e.symm)]
      obtain ⟨a1, a2⟩ := connAvail_mono w
        { w with
          l := { w.l with globalLimit := (w.l.globalLimit.WaitN w.now n).1 }
          conns := w.conns.set c { conn with
            perConnLimit :=
              (conn.perConnLimit.WaitN (w.l.globalLimit.WaitN w.now n).2.1 n).1 }
          now := (conn.perConnLimit.WaitN (w.l.globalLimit.WaitN w.now n).2.1 n).2.1
          trace := w.trace ++ [Event.waitGlobal n, Event.waitPerConn c n, ev] } d hget rfl
        (le_trans hge1 hge2) hq
      refine ⟨a1, ?_⟩
      show ((admittedBytesOf d (w.trace ++
        [Event.waitGlobal n, Event.waitPerConn c n, ev]) : Nat) : ℚ) + _ ≤ _
      rw [admittedBytesOf_append, hw3, if_neg hcd]
      push_cast
      linarith

theorem step_read_shape (w : World) (c : Nat) (b : List Byte) (res : Nat × Option Error) :
    step w (Op.read c b res) = w ∨
      ∃ conn, w.conns[c]? = some conn ∧
        CallShape w (step w (Op.read c b res)) c conn b.length (Event.connRead c b.length) := by
  cases hc : w.conns[c]? with
  | none => left; simp [step, limitConn.Read, hc]
  | some conn =>
    right
    obtain ⟨w1, r, h1, h2⟩ := Read_shape w c conn b res hc
    refine ⟨conn, rfl, ?_⟩
    have : step w (Op.read c b res) = w1 := by simp [step, h1]
    rw [this]; exact h2

theorem step_write_shape (w : World) (c : Nat) (b : List Byte) (res : Nat × Option Error) :
    step w (Op.write c b res) = w ∨
      ∃ conn, w.conns[c]? = some conn ∧
        CallShape w (step w (Op.write c b res)) c conn b.length
          (Event.connWrite c b.length) := by
  cases hc : w.conns[c]? with
  | none => left; simp [step, limitConn.Write, hc]
  | some conn =>
    right
    obtain ⟨w1, r, h1, h2⟩ := Write_shape w c conn b res hc
    refine ⟨conn, rfl, ?_⟩
    have : step w (Op.write c b res) = w1 := by simp [step, h1]
    rw [this]; exact h2

theorem quiet_global (w w1 : World) (h1 : w1.l.globalLimit = w.l.globalLimit)
    (h2 : w.now ≤ w1.now) (h3 : admittedBytes w1.trace = admittedBytes w.trace)
    (hg : 0 ≤ w.l.globalLimit.limit) :
    w1.l.globalLimit.limit = w.l.globalLimit.limit ∧ w.now ≤ w1.now ∧
    (admittedBytes w1.trace : ℚ) + avail w1.l.globalLimit w1.now ≤
      admittedBytes w.trace + avail w.l.globalLimit w.now +
        w.l.globalLimit.limit * (w1.now - w.now) := by
  refine ⟨by rw [h1], h2, ?_⟩
  rw [h1, h3]
  have := avail_mono_time w.l.globalLimit w.now w1.now h2 hg
  linarith

theorem quiet_conn (w w1 : World) (d : Nat) (h1 : w1.conns[d]? = w.conns[d]?)
    (h2 : w1.l.perConnLimit = w.l.perConnLimit) (ht : w.now ≤ w1.now)
    (h3 : admittedBytesOf d w1.trace = admittedBytesOf d w.trace)
    (hq : 0 ≤ connRate w d) :
    connRate w1 d = connRate w d ∧
    (admittedBytesOf d w1.trace : ℚ) + connAvail w1 d ≤
      admittedBytesOf d w.trace + connAvail w d + connRate w d * (w1.now - w.now) := by
  obtain ⟨a1, a2⟩ := connAvail_mono w w1 d h1 h2 ht hq
  refine ⟨a1, ?_⟩
  rw [h3]
  linarith

theorem getElem?_snoc_ne {α : Type} (xs : List α) (a : α) (d : Nat) (h : d ≠ xs.length) :
    (xs ++ [a])[d]? = xs[d]? := by
  by_cases hlt : d < xs.length
  · exact List.getElem?_append_left hlt
  · have hgt : xs.length < d := by omega
    rw [List.getElem?_eq_none_iff.mpr (by omega : xs.length ≤ d)]
    apply List.getElem?_eq_none_iff.mpr
    rw [List.length_append]
    simp
    omega

theorem tick_now (w : World) (d : ℚ) : w.now ≤ w.now + max d 0 := by
  have := le_max_right d 0
  linarith

theorem global_step (w : World) (op : Op) (hw : WF w) (hg : 0 ≤ w.l.globalLimit.limit)
    (hop : op.isSetLimit = false) :
    (step w op).l.globalLimit.limit = w.l.globalLimit.limit ∧ w.now ≤ (step w op).now ∧
    (admittedBytes (step w op).trace : ℚ) + avail (step w op).l.globalLimit (step w op).now ≤
      admittedBytes w.trace + avail w.l.globalLimit w.now +
        w.l.globalLimit.limit * ((step w op).now - w.now) := by
  cases op with
  | accept env =>
    rw [show step w (Op.accept env) = (LimitListener.Accept w env).1 from rfl]
    obtain ⟨-, f2, f3, f4, -⟩ := Accept_frame w env
    exact quiet_global w _ f2 (le_of_eq f3.symm) (by rw [f4]) hg
  | close c res =>
    rcases step_close w c res with ⟨-, h1⟩ | ⟨w1, r, h1, h2⟩
    · rw [h1]; exact quiet_global w w rfl (le_refl _) rfl hg
    · rw [h2]
      obtain ⟨conn, _, -, -, -, -, -, -, f5, f6, f7, -⟩ := Close_frame w w1 c res r h1
      refine quiet_global w w1 f5 (le_of_eq f6.symm) ?_ hg
      rw [f7, admittedBytes_append]
      simp [admittedBytes, Event.bytes]
  | read c b res =>
    rcases step_read_shape w c b res with h1 | ⟨conn, -, h2⟩
    · rw [h1]; exact quiet_global w w rfl (le_refl _) rfl hg
    · exact shape_global w _ c conn b.length _ h2 (Or.inl rfl) hw hg
  | write c b res =>
    rcases step_write_shape w c b res with h1 | ⟨conn, -, h2⟩
    · rw [h1]; exact quiet_global w w rfl (le_refl _) rfl hg
    · exact shape_global w _ c conn b.length _ h2 (Or.inr rfl) hw hg
  | setLimit p g => simp [Op.isSetLimit] at hop
  | tick d => exact quiet_global w _ rfl (tick_now w d) rfl hg

theorem conn_pays_step (w : World) (op : Op) (d : Nat) (hw : WF w) (hq : 0 ≤ connRate w d)
    (hop : op.isSetLimit = false) :
    connRate (step w op) d = connRate w d ∧
    (admittedBytesOf d (step w op).trace : ℚ) + connAvail (step w op) d ≤
      admittedBytesOf d w.trace + connAvail w d +
        connRate w d * ((step w op).now - w.now) := by
  cases op with
  | accept env =>
    rw [show step w (Op.accept env) = (LimitListener.Accept w env).1 from rfl]
    obtain ⟨f1, -, f3, f4, -⟩ := Accept_frame w env
    cases hs : acceptSucceeds env with
    | false =>
      obtain ⟨-, -, g3, -⟩ := Accept_of_fails w env hs
      exact quiet_conn w _ d (by rw [g3]) f1 (le_of_eq f3.symm) (by rw [f4]) hq
    | true =>
      obtain ⟨-, g2, -⟩ := Accept_of_succeeds w env hs
      by_cases hd : d = w.conns.length
      · have hnone : w.conns[d]? = none := List.getElem?_eq_none_iff.mpr (by omega)
        have hsome : (LimitListener.Accept w env).1.conns[d]? =
            some { Conn := w.raw.length
                   perConnLimit :=
                     NewLimiter w.l.perConnLimit.limit w.l.perConnLimit.burst w.now
                   removeFn := some w.conns.length } := by
          rw [g2, hd, List.getElem?_append_right (le_refl _)]
          simp
        have hav : avail (NewLimiter w.l.perConnLimit.limit w.l.perConnLimit.burst w.now)
            w.now = max (w.l.perConnLimit.burst : ℚ) 0 := by
          unfold avail Limiter.advance NewLimiter
          simp
        constructor
        · show connRate (LimitListener.Accept w env).1 d = connRate w d
          unfold connRate
          rw [hsome, hnone]
          rfl
        · show ((admittedBytesOf d (LimitListener.Accept w env).1.trace : Nat) : ℚ) +
            connAvail (LimitListener.Accept w env).1 d ≤
            admittedBytesOf d w.trace + connAvail w d +
              connRate w d * ((LimitListener.Accept w env).1.now - w.now)
          rw [f4, f3]
          unfold connAvail
          rw [hsome, hnone]
          simp only [f3, hav, sub_self, mul_zero, add_zero]
          exact le_refl _
      · exact quiet_conn w _ d (by rw [g2]; exact getElem?_snoc_ne _ _ _ hd) f1
          (le_of_eq f3.symm) (by rw [f4]) hq
  | close c res =>
    rcases step_close w c res with ⟨-, h1⟩ | ⟨w1, r, h1, h2⟩
    · rw [h1]; exact quiet_conn w w d rfl rfl (le_refl _) rfl hq
    · rw [h2]
      obtain ⟨conn, _, -, -, -, f2, -, f4, -, f6, f7, -⟩ := Close_frame w w1 c res r h1
      refine quiet_conn w w1 d (by rw [f2]) f4 (le_of_eq f6.symm) ?_ hq
      rw [f7, admittedBytesOf_append]
      simp [admittedBytesOf, Event.bytesOf]
  | read c b res =>
    rcases step_read_shape w c b res with h1 | ⟨conn, hc, h2⟩
    · rw [h1]; exact quiet_conn w w d rfl rfl (le_refl _) rfl hq
    · exact shape_conn w _ c d conn b.length _ h2 (Or.inl rfl) hc hw hq
  | write c b res =>
    rcases step_write_shape w c b res with h1 | ⟨conn, hc, h2⟩
    · rw [h1]; exact quiet_conn w w d rfl rfl (le_refl _) rfl hq
    · exact shape_conn w _ c d conn b.length _ h2 (Or.inr rfl) hc hw hq
  | setLimit p g => simp [Op.isSetLimit] at hop
  | tick e => exact quiet_conn w _ d rfl rfl (tick_now w e) rfl hq

theorem global_run (ops : List Op) :
    ∀ w : World, WF w → 0 ≤ w.l.globalLimit.limit →
      ops.all (fun op => !op.isSetLimit) = true →
      (run w ops).l.globalLimit.limit = w.l.globalLimit.limit ∧ w.now ≤ (run w ops).now ∧
      (admittedBytes (run w ops).trace : ℚ) + avail (run w ops).l.globalLimit (run w ops).now ≤
        admittedBytes w.trace + avail w.l.globalLimit w.now +
          w.l.globalLimit.limit * ((run w ops).now - w.now) := by
  induction ops with
  | nil =>
    intro w _ _ _
    refine ⟨rfl, le_refl _, ?_⟩
    show _ ≤ _ + _ + (w.l.globalLimit.limit : ℚ) * (w.now - w.now)
    simp [run]
  | cons op ops ih =>
    intro w hw hg hall
    simp only [List.all_cons, Bool.and_eq_true, Bool.not_eq_true'] at hall
    obtain ⟨a1, a2, a3⟩ := global_step w op hw hg hall.1
    obtain ⟨b1, b2, b3⟩ := ih (step w op) (WF_step w op hw) (by rw [a1]; exact hg) hall.2
    rw [a1] at b3
    refine ⟨by show (run (step w op) ops).l.globalLimit.limit = _; rw [b1, a1],
      le_trans a2 b2, ?_⟩
    show ((admittedBytes (run (step w op) ops).trace : Nat) : ℚ) +
      avail (run (step w op) ops).l.globalLimit (run (step w op) ops).now ≤
      admittedBytes w.trace + avail w.l.globalLimit w.now +
        w.l.globalLimit.limit * ((run (step w op) ops).now - w.now)
    linarith

theorem conn_run (ops : List Op) (d : Nat) :
    ∀ w : World, WF w → 0 ≤ connRate w d →
      ops.all (fun op => !op.isSetLimit) = true →
      connRate (run w ops) d = connRate w d ∧
      (admittedBytesOf d (run w ops).trace : ℚ) + connAvail (run w ops) d ≤
        admittedBytesOf d w.trace + connAvail w d +
          connRate w d * ((run w ops).now - w.now) := by
  induction ops with
  | nil =>
    intro w _ _ _
    refine ⟨rfl, ?_⟩
    show _ ≤ _ + _ + (connRate w d : ℚ) * (w.now - w.now)
    simp [run]
  | cons op ops ih =>
    intro w hw hq hall
    simp only [List.all_cons, Bool.and_eq_true, Bool.not_eq_true'] at hall
    obtain ⟨a1, a3⟩ := conn_pays_step w op d hw hq hall.1
    obtain ⟨b1, b3⟩ := ih (step w op) (WF_step w op hw) (by rw [a1]; exact hq) hall.2
    rw [a1] at b3
    refine ⟨by show connRate (run (step w op) ops) d = _; rw [b1, a1], ?_⟩
    show ((admittedBytesOf d (run (step w op) ops).trace : Nat) : ℚ) +
      connAvail (run (step w op) ops) d ≤
      admittedBytesOf d w.trace + connAvail w d +
        connRate w d * ((run (step w op) ops).now - w.now)
    linarith

theorem connAvail_bounds (w : World) (d : Nat) (hw : WF w) (hq : 0 ≤ connRate w d) :
    0 ≤ connAvail w d ∧ connAvail w d ≤ connRate w d := by
  unfold connAvail connRate at *
  cases hd : w.conns[d]? with
  | none =>
    rw [hd] at hq
    have hb : w.l.perConnLimit.burst = w.l.perConnLimit.limit := hw.2.2.1
    have hq2 : (0 : ℚ) ≤ (w.l.perConnLimit.limit : ℚ) := by exact_mod_cast hq
    refine ⟨le_max_right _ _, ?_⟩
    show max (w.l.perConnLimit.burst : ℚ) 0 ≤ (w.l.perConnLimit.limit : ℚ)
    rw [hb]
    exact max_le (le_refl _) hq2
  | some conn =>
    rw [hd] at hq
    have hb := (hw.2.1 d conn hd).2.2
    refine ⟨avail_nonneg _ _, ?_⟩
    have := avail_le_burst conn.perConnLimit w.now (by rw [hb]; exact hq)
    show avail conn.perConnLimit w.now ≤ (conn.perConnLimit.limit : ℚ)
    rw [← hb]
    exact this

theorem connRate_registered (p g : Int) (w : World) (d : Nat) (hw : WF w) (hc : Cfg p g w)
    (hd : d ∈ w.l.activeConnections ∨ w.conns.length ≤ d) : connRate w d = p := by
  unfold connRate
  rcases hd with hd | hd
  · obtain ⟨-, conn, h1, h2, -⟩ := GetLimits_of_inv p g w hw hc d hd
    rw [h1]; exact h2
  · rw [List.getElem?_eq_none_iff.mpr hd]
    exact hc.2.1

/-! ## Health over call sequences -/

theorem trace_step (w : World) (op : Op) : ∃ evs, (step w op).trace = w.trace ++ evs := by
  have hself : ∃ evs, w.trace = w.trace ++ evs := ⟨[], by simp⟩
  cases op with
  | accept env =>
    obtain ⟨-, -, -, f4, -⟩ := Accept_frame w env
    exact ⟨[], by show (LimitListener.Accept w env).1.trace = _; rw [f4]; simp⟩
  | close c res =>
    rcases step_close w c res with ⟨-, h1⟩ | ⟨w1, r, h1, h2⟩
    · rw [h1]; exact hself
    · rw [h2]
      obtain ⟨conn, _, -, -, -, -, -, -, -, -, f7, -⟩ := Close_frame w w1 c res r h1
      exact ⟨_, f7⟩
  | read c b res =>
    rcases step_read_shape w c b res with h1 | ⟨conn, -, h2⟩
    · rw [h1]; exact hself
    · rcases h2 with ⟨-, h⟩ | ⟨-, h⟩ | ⟨-, -, h⟩ | ⟨-, -, h⟩ <;> rw [h] <;> exact ⟨_, rfl⟩
  | write c b res =>
    rcases step_write_shape w c b res with h1 | ⟨conn, -, h2⟩
    · rw [h1]; exact hself
    · rcases h2 with ⟨-, h⟩ | ⟨-, h⟩ | ⟨-, -, h⟩ | ⟨-, -, h⟩ <;> rw [h] <;> exact ⟨_, rfl⟩
  | setLimit p g => exact hself
  | tick d => exact hself

theorem trace_run (ops : List Op) :
    ∀ w : World, ∃ evs, (run w ops).trace = w.trace ++ evs := by
  induction ops with
  | nil => intro w; exact ⟨[], by simp [run]⟩
  | cons op ops ih =>
    intro w
    obtain ⟨e1, h1⟩ := trace_step w op
    obtain ⟨e2, h2⟩ := ih (step w op)
    refine ⟨e1 ++ e2, ?_⟩
    show (run (step w op) ops).trace = _
    rw [h2, h1, List.append_assoc]

/-- The two accounts closed over a window without `SetLimit`: the bytes admitted in the
window are at most rate times length plus rate, for the global limiter and for the
limiter of any connection with a rate that is not negative. -/
theorem window_bounds (w : World) (win : List Op) (c : Nat) (hw : WF w)
    (hwin : win.all (fun op => !op.isSetLimit) = true) (hg : 0 ≤ w.l.globalLimit.limit)
    (evs : List Event) (hevs : (run w win).trace = w.trace ++ evs) :
    w.now ≤ (run w win).now ∧
    (admittedBytes evs : ℚ) ≤
      w.l.globalLimit.limit * ((run w win).now - w.now) + w.l.globalLimit.limit ∧
    (0 ≤ connRate w c →
      (admittedBytesOf c evs : ℚ) ≤
        connRate w c * ((run w win).now - w.now) + connRate w c) := by
  obtain ⟨-, a2, a3⟩ := global_run win w hw hg hwin
  have hb : w.l.globalLimit.burst = w.l.globalLimit.limit := hw.2.2.2
  have h1 := avail_le_burst w.l.globalLimit w.now (by rw [hb]; exact hg)
  have h2 := avail_nonneg (run w win).l.globalLimit (run w win).now
  have hbq : (w.l.globalLimit.burst : ℚ) = (w.l.globalLimit.limit : ℚ) := by exact_mod_cast hb
  rw [hevs, admittedBytes_append] at a3
  push_cast at a3
  refine ⟨a2, by linarith, ?_⟩
  intro hq
  obtain ⟨-, b3⟩ := conn_run win c w hw hq hwin
  obtain ⟨-, k2⟩ := connAvail_bounds w c hw hq
  have k3 : 0 ≤ connAvail (run w win) c := by
    unfold connAvail
    cases (run w win).conns[c]? with
    | none => exact le_max_right _ _
    | some conn => exact avail_nonneg _ _
  rw [hevs, admittedBytesOf_append] at b3
  push_cast at b3
  linarith

/-! ## Claims -/

/-- C1. Configuration invariant. In the world reached from `NewLimitListener(l, p0, g0)`
by any calls `ops`, with `(p, g)` the pair of the most recent `SetLimit` (or `(p0, g0)`):
every connection in `activeConnections` reports `GetLimits() = (p, g)` and its limiter
has rate and burst `p`; the global limiter has rate and burst `g`, the default
per-connection limiter rate and burst `p`. Right after a further `SetLimit(p2, g2)`
every registered connection reports `(p2, g2)`, and a connection accepted after that
is registered with rate and burst `p2`. -/
theorem C1_configuration_invariant (p0 g0 : Int) (t : ℚ) (ops : List Op) :
    (∀ c ∈ (reachable p0 g0 t ops).l.activeConnections,
      limitConn.GetLimits (reachable p0 g0 t ops) c = some (lastLimits p0 g0 ops) ∧
      ∃ conn, (reachable p0 g0 t ops).conns[c]? = some conn ∧
        conn.perConnLimit.limit = (lastLimits p0 g0 ops).1 ∧
        conn.perConnLimit.burst = (lastLimits p0 g0 ops).1) ∧
    ((reachable p0 g0 t ops).l.globalLimit.limit = (lastLimits p0 g0 ops).2 ∧
      (reachable p0 g0 t ops).l.globalLimit.burst = (lastLimits p0 g0 ops).2) ∧
    ((reachable p0 g0 t ops).l.perConnLimit.limit = (lastLimits p0 g0 ops).1 ∧
      (reachable p0 g0 t ops).l.perConnLimit.burst = (lastLimits p0 g0 ops).1) ∧
    (∀ (p2 g2 : Int),
      ∀ c ∈ (LimitListener.SetLimit (reachable p0 g0 t ops) p2 g2).l.activeConnections,
        limitConn.GetLimits (LimitListener.SetLimit (reachable p0 g0 t ops) p2 g2) c =
          some (p2, g2)) ∧
    (∀ (p2 g2 : Int) (env : Accepted) (tc : Nat),
      (LimitListener.Accept (LimitListener.SetLimit (reachable p0 g0 t ops) p2 g2) env).2.1 =
          some tc →
        tc ∈ (LimitListener.Accept
          (LimitListener.SetLimit (reachable p0 g0 t ops) p2 g2) env).1.l.activeConnections ∧
        ∃ conn, (LimitListener.Accept
            (LimitListener.SetLimit (reachable p0 g0 t ops) p2 g2) env).1.conns[tc]? = some conn ∧
          conn.perConnLimit.limit = p2 ∧ conn.perConnLimit.burst = p2) := by
  obtain ⟨hw, hc⟩ := reachable_inv p0 g0 t ops
  refine ⟨?_, ?_, ?_, ?_, ?_⟩
  · intro c hm
    exact GetLimits_of_inv _ _ _ hw hc c hm
  · exact ⟨hc.1, by rw [hw.2.2.2, hc.1]⟩
  · exact ⟨hc.2.1, by rw [hw.2.2.1, hc.2.1]⟩
  · intro p2 g2 c hm
    exact (GetLimits_of_inv p2 g2 _ (WF_SetLimit _ p2 g2 hw) (Cfg_SetLimit _ p2 g2) c hm).1
  · intro p2 g2 env tc htc
    have hw2 := WF_Accept _ env (WF_SetLimit _ p2 g2 hw)
    have hc2 := Cfg_Accept p2 g2 _ env (Cfg_SetLimit (reachable p0 g0 t ops) p2 g2)
    have hm : tc ∈ (LimitListener.Accept
        (LimitListener.SetLimit (reachable p0 g0 t ops) p2 g2) env).1.l.activeConnections := by
      obtain ⟨-, -, -, -, -, f4⟩ :=
        Accept_frame (LimitListener.SetLimit (reachable p0 g0 t ops) p2 g2) env
      rcases f4 with ⟨f5, -⟩ | ⟨f5, -, -, -, f6⟩
      · rw [f5] at htc; exact absurd htc (by simp)
      · rw [f5] at htc
        simp only [Option.some.injEq] at htc
        rw [f6, ← htc]
        exact List.mem_insert_self _ _
    exact ⟨hm, (GetLimits_of_inv p2 g2 _ hw2 hc2 tc hm).2⟩

/-- Witness of C1 on the scenario of `TestLimitListener_SetLimit`: limits `(3, 10)`, one
accepted connection, then `SetLimit(5, 15)`. -/
theorem C1_configuration_invariant_witness :
    limitConn.GetLimits
        (reachable 3 10 0 [Op.accept (Accepted.conn true none none), Op.setLimit 5 15]) 0 =
      some (5, 15) :=
  ((C1_configuration_invariant 3 10 0
    [Op.accept (Accepted.conn true none none), Op.setLimit 5 15]).1 0 (by decide)).1

/-- C2. Registry consistency. In the world reached from `NewLimitListener(l, p0, g0)` by
any calls `ops`, `activeConnections` holds exactly the connections returned by a
successful `Accept` and not closed since, and as many connections have been allocated
as `Accept` succeeded. `Accept` succeeds exactly when the wrapped listener returns a
TCP connection and both keep-alive calls succeed: it then returns a new connection
without error, allocates it and adds exactly it to the set; otherwise it returns nil
with an error and the set is as before. `Close` on an allocated connection returns and
removes exactly that connection. `SetLimit` leaves the set as it is. -/
theorem C2_registry_consistency (p0 g0 : Int) (t : ℚ) (ops : List Op) :
    (∀ c, c ∈ (reachable p0 g0 t ops).l.activeConnections ↔
      c ∈ acceptedNotClosed 0 [] ops) ∧
    (reachable p0 g0 t ops).conns.length = acceptedCount ops ∧
    (∀ env : Accepted, acceptSucceeds env = true →
      (LimitListener.Accept (reachable p0 g0 t ops) env).2 =
          (some (acceptedCount ops), none) ∧
        (LimitListener.Accept (reachable p0 g0 t ops) env).1.conns.length =
          acceptedCount ops + 1 ∧
        acceptedCount ops ∉ (reachable p0 g0 t ops).l.activeConnections ∧
        ∀ c, c ∈ (LimitListener.Accept (reachable p0 g0 t ops) env).1.l.activeConnections ↔
          c = acceptedCount ops ∨ c ∈ (reachable p0 g0 t ops).l.activeConnections) ∧
    (∀ env : Accepted, acceptSucceeds env = false →
      (LimitListener.Accept (reachable p0 g0 t ops) env).2.1 = none ∧
        (LimitListener.Accept (reachable p0 g0 t ops) env).2.2 ≠ none ∧
        (LimitListener.Accept (reachable p0 g0 t ops) env).1.l.activeConnections =
          (reachable p0 g0 t ops).l.activeConnections) ∧
    (∀ (c : Nat) (res : Option Error), c < acceptedCount ops →
      ∃ w1, limitConn.Close (reachable p0 g0 t ops) c res = some (w1, res) ∧
        ∀ d, d ∈ w1.l.activeConnections ↔
          d ∈ (reachable p0 g0 t ops).l.activeConnections ∧ d ≠ c) ∧
    (∀ p g : Int,
      (LimitListener.SetLimit (reachable p0 g0 t ops) p g).l.activeConnections =
        (reachable p0 g0 t ops).l.activeConnections) := by
  obtain ⟨hw, -⟩ := reachable_inv p0 g0 t ops
  have hlen : (reachable p0 g0 t ops).conns.length = acceptedCount ops := by
    have := length_run ops (NewLimitListener p0 g0 t)
    simpa [reachable, NewLimitListener] using this
  refine ⟨?_, hlen, ?_, ?_, ?_, ?_⟩
  · exact run_active ops _ [] (WF_NewLimitListener p0 g0 t) (fun c => Iff.rfl)
  · intro env hs
    obtain ⟨f1, f2, f3⟩ := Accept_of_succeeds (reachable p0 g0 t ops) env hs
    refine ⟨by rw [f1, hlen], by rw [f2, List.length_append, hlen]; rfl, ?_, ?_⟩
    · intro hm
      have := hw.1 _ hm
      omega
    · intro c
      rw [f3, List.mem_insert_iff, hlen]
  · intro env hs
    obtain ⟨f1, f2, -, f4⟩ := Accept_of_fails (reachable p0 g0 t ops) env hs
    exact ⟨f1, f2, f4⟩
  · intro c res hc
    obtain ⟨w1, conn, h1, -, h3, -⟩ := Close_of_WF _ c res hw (hlen ▸ hc)
    refine ⟨w1, h1, ?_⟩
    intro d
    rw [h3, mem_filter_ne]
  · intro p g
    rfl

/-- Witness of C2: limits `(100, 100)`; after one `Accept` the registry is `{0}`; after
two `Accept`s, traffic on the first connection and its `Close`, the registry is `{1}`;
an `Accept` in between that fails on a non-TCP connection registers nothing. -/
theorem C2_registry_consistency_witness :
    (reachable 100 100 0 [Op.accept (Accepted.conn true none none)]).l.activeConnections =
        [0] ∧
      (reachable 100 100 0
        [Op.accept (Accepted.conn true none none), Op.accept (Accepted.conn false none none),
          Op.accept (Accepted.conn true none none), Op.write 0 [1, 2, 3] (3, none),
          Op.read 0 [0, 0, 0] (3, none), Op.close 0 none]).l.activeConnections = [1] ∧
      acceptedNotClosed 0 []
        [Op.accept (Accepted.conn true none none), Op.accept (Accepted.conn false none none),
          Op.accept (Accepted.conn true none none), Op.write 0 [1, 2, 3] (3, none),
          Op.read 0 [0, 0, 0] (3, none), Op.close 0 none] = [1] ∧
      (LimitListener.Accept (reachable 100 100 0 [Op.accept (Accepted.conn true none none)])
        (Accepted.conn true none none)).2 = (some 1, none) ∧
      ∀ c, c ∈ (reachable 100 100 0
          [Op.accept (Accepted.conn true none none), Op.accept (Accepted.conn false none none),
            Op.accept (Accepted.conn true none none), Op.write 0 [1, 2, 3] (3, none),
            Op.read 0 [0, 0, 0] (3, none), Op.close 0 none]).l.activeConnections ↔
        c ∈ acceptedNotClosed 0 []
          [Op.accept (Accepted.conn true none none), Op.accept (Accepted.conn false none none),
            Op.accept (Accepted.conn true none none), Op.write 0 [1, 2, 3] (3, none),
            Op.read 0 [0, 0, 0] (3, none), Op.close 0 none] :=
  ⟨by decide, by decide, by decide, by decide,
    (C2_registry_consistency 100 100 0
      [Op.accept (Accepted.conn true none none), Op.accept (Accepted.conn false none none),
        Op.accept (Accepted.conn true none none), Op.write 0 [1, 2, 3] (3, none),
        Op.read 0 [0, 0, 0] (3, none), Op.close 0 none]).1⟩

/-- C3. Gating order of `Read` and `Write`. For every non-empty buffer `b`, both methods
acquire `len(b)` tokens from the global limiter, then `len(b)` tokens from the
per-connection limiter, and only then call the transport, returning exactly its
result. If an acquisition fails (`len(b)` above that limiter's capacity) the call
returns `(0, that error)` without a transport call, and a failed global acquisition
leaves the per-connection limiter untouched. -/
theorem C3_gating_order (w : World) (c : Nat) (conn : limitConn) (b : List Byte)
    (res : Nat × Option Error) (hc : w.conns[c]? = some conn) (hb : b ≠ []) :
    Gated limitConn.Read Event.connRead w c conn b res ∧
      Gated limitConn.Write Event.connWrite w c conn b res :=
  gated_Read_Write w c conn b res hc hb

/-- Witness of C3: limits `(3, 10)`, one accepted connection, a buffer of two bytes. -/
theorem C3_gating_order_witness :
    (reachable 3 10 0 [Op.accept (Accepted.conn true none none)]).conns[0]? =
        some { Conn := 0, perConnLimit := NewLimiter 3 3 0, removeFn := some 0 } ∧
      ([1, 2] : List Byte) ≠ [] ∧
      Gated limitConn.Read Event.connRead
        (reachable 3 10 0 [Op.accept (Accepted.conn true none none)]) 0
        { Conn := 0, perConnLimit := NewLimiter 3 3 0, removeFn := some 0 } [1, 2] (2, none) ∧
      Gated limitConn.Write Event.connWrite
        (reachable 3 10 0 [Op.accept (Accepted.conn true none none)]) 0
        { Conn := 0, perConnLimit := NewLimiter 3 3 0, removeFn := some 0 } [1, 2] (2, none) :=
  ⟨rfl, by decide,
    C3_gating_order (reachable 3 10 0 [Op.accept (Accepted.conn true none none)]) 0
      { Conn := 0, perConnLimit := NewLimiter 3 3 0, removeFn := some 0 } [1, 2] (2, none)
      rfl (by decide)⟩

/-- C4. Idempotent close. For a connection `c` allocated by `Accept` in a reachable
world, the first `Close` returns normally with `c` deregistered and its transport
closed; a second `Close`, directly afterwards or after any further calls `ops2`, returns
normally as well, leaves `activeConnections` as it found it, and returns what the
transport returns for the close of the already closed connection (`res2`). -/
theorem C4_idempotent_close (p0 g0 : Int) (t : ℚ) (ops ops2 : List Op) (c : Nat)
    (res1 res2 : Option Error) (hc : c < (reachable p0 g0 t ops).conns.length) :
    ∃ w1, limitConn.Close (reachable p0 g0 t ops) c res1 = some (w1, res1) ∧
      c ∉ w1.l.activeConnections ∧
      (∀ d, d ≠ c → (d ∈ w1.l.activeConnections ↔
        d ∈ (reachable p0 g0 t ops).l.activeConnections)) ∧
      connClosed (run w1 ops2) c = true ∧
      ∃ w2, limitConn.Close (run w1 ops2) c res2 = some (w2, res2) ∧
        w2.l.activeConnections = (run w1 ops2).l.activeConnections := by
  obtain ⟨hw, -⟩ := reachable_inv p0 g0 t ops
  obtain ⟨w1, conn, h1, h2, h3, h4, -⟩ := Close_of_WF _ c res1 hw hc
  have hw1 : WF w1 := WF_Close _ w1 c res1 res1 hw h1
  have hn1 : c ∉ w1.l.activeConnections := by
    rw [h3, mem_filter_ne]
    exact fun hm => hm.2 rfl
  have hc1 : c < w1.conns.length := by rw [h4]; exact hc
  obtain ⟨hc2, hn2⟩ := notActive_run ops2 w1 c hc1 hn1
  obtain ⟨w2, -, k1, -, k3, -⟩ := Close_of_WF _ c res2 (WF_run ops2 w1 hw1) hc2
  refine ⟨w1, h1, hn1, ?_, connClosed_run ops2 w1 c (connClosed_Close _ w1 c res1 res1 hw h1),
    w2, k1, ?_⟩
  · intro d hd
    rw [h3, mem_filter_ne]
    exact ⟨fun hm => hm.1, fun hm => ⟨hm, hd⟩⟩
  · rw [k3, List.filter_eq_self]
    intro d hd
    have : d ≠ c := fun e => hn2 (e ▸ hd)
    simpa using this

/-- Witness of C4: limits `(100, 100)`, two accepted connections, the first one closed
twice with a `SetLimit` in between; the transport answers the second close with an
error. -/
theorem C4_idempotent_close_witness :
    0 < (reachable 100 100 0 [Op.accept (Accepted.conn true none none),
        Op.accept (Accepted.conn true none none)]).conns.length ∧
      ∃ w1, limitConn.Close (reachable 100 100 0 [Op.accept (Accepted.conn true none none),
          Op.accept (Accepted.conn true none none)]) 0 none = some (w1, none) ∧
        0 ∉ w1.l.activeConnections ∧
        (∀ d, d ≠ 0 → (d ∈ w1.l.activeConnections ↔
          d ∈ (reachable 100 100 0 [Op.accept (Accepted.conn true none none),
            Op.accept (Accepted.conn true none none)]).l.activeConnections)) ∧
        connClosed (run w1 [Op.setLimit 5 15]) 0 = true ∧
        ∃ w2, limitConn.Close (run w1 [Op.setLimit 5 15]) 0 (some (Error.transport 1)) =
            some (w2, some (Error.transport 1)) ∧
          w2.l.activeConnections = (run w1 [Op.setLimit 5 15]).l.activeConnections :=
  ⟨by decide,
    C4_idempotent_close 100 100 0 [Op.accept (Accepted.conn true none none),
      Op.accept (Accepted.conn true none none)] [Op.setLimit 5 15] 0 none
      (some (Error.transport 1)) (by decide)⟩

/-- C10. No refund of the global debit. In a reachable world, for a non-empty buffer `b`
whose length is at most the global capacity but above the per-connection capacity of
connection `c`, `Read` and `Write` return `(0, error)` after calling the two limiters
and not the transport; the global limiter is left with its balance at the time of the
call less `len(b)`, and nothing is credited back; the connection is as it was. -/
theorem C10_no_refund (p0 g0 : Int) (t : ℚ) (ops : List Op) (c : Nat) (conn : limitConn)
    (b : List Byte) (res : Nat × Option Error)
    (hc : (reachable p0 g0 t ops).conns[c]? = some conn) (hb : b ≠ [])
    (hg : (b.length : Int) ≤ (reachable p0 g0 t ops).l.globalLimit.burst)
    (hp : conn.perConnLimit.burst < (b.length : Int)) :
    (∃ w1, limitConn.Read (reachable p0 g0 t ops) c b res =
        some (w1, 0, some (Error.exceedsBurst b.length conn.perConnLimit.burst)) ∧
      w1.trace = (reachable p0 g0 t ops).trace ++
        [Event.waitGlobal b.length, Event.waitPerConn c b.length] ∧
      w1.conns = (reachable p0 g0 t ops).conns ∧
      w1.l.globalLimit.tokens =
        (reachable p0 g0 t ops).l.globalLimit.advance (reachable p0 g0 t ops).now - b.length ∧
      w1.l.globalLimit.last = (reachable p0 g0 t ops).now) ∧
    (∃ w1, limitConn.Write (reachable p0 g0 t ops) c b res =
        some (w1, 0, some (Error.exceedsBurst b.length conn.perConnLimit.burst)) ∧
      w1.trace = (reachable p0 g0 t ops).trace ++
        [Event.waitGlobal b.length, Event.waitPerConn c b.length] ∧
      w1.conns = (reachable p0 g0 t ops).conns ∧
      w1.l.globalLimit.tokens =
        (reachable p0 g0 t ops).l.globalLimit.advance (reachable p0 g0 t ops).now - b.length ∧
      w1.l.globalLimit.last = (reachable p0 g0 t ops).now) := by
  obtain ⟨hw, -⟩ := reachable_inv p0 g0 t ops
  have hpos : 0 < b.length := List.length_pos.mpr hb
  have hne : (reachable p0 g0 t ops).l.globalLimit.limit ≠ 0 := by
    have := hw.2.2.2
    omega
  obtain ⟨k1, k2, -⟩ := WaitN_tokens _ (reachable p0 g0 t ops).now b.length hg hne
  obtain ⟨hr, hwr⟩ := gated_Read_Write (reachable p0 g0 t ops) c conn b res hc hb
  obtain ⟨w1, a1, a2, a3, a4⟩ := hr.2.1 hg hp
  obtain ⟨w2, b1, b2, b3, b4⟩ := hwr.2.1 hg hp
  exact ⟨⟨w1, a1, a2, a3, by rw [a4, k1], by rw [a4, k2]⟩,
    ⟨w2, b1, b2, b3, by rw [b4, k1], by rw [b4, k2]⟩⟩

/-- Witness of C10: limits `(3, 10)`, one accepted connection, a buffer of four
bytes. -/
theorem C10_no_refund_witness :
    (reachable 3 10 0 [Op.accept (Accepted.conn true none none)]).conns[0]? =
        some { Conn := 0, perConnLimit := NewLimiter 3 3 0, removeFn := some 0 } ∧
      (∃ w1, limitConn.Read (reachable 3 10 0 [Op.accept (Accepted.conn true none none)]) 0
          [1, 2, 3, 4] (4, none) = some (w1, 0, some (Error.exceedsBurst 4 3)) ∧
        w1.l.globalLimit.tokens = 6) ∧
      (∃ w1, limitConn.Write (reachable 3 10 0 [Op.accept (Accepted.conn true none none)]) 0
          [1, 2, 3, 4] (4, none) = some (w1, 0, some (Error.exceedsBurst 4 3)) ∧
        w1.l.globalLimit.tokens = 6) := by
  have h := C10_no_refund 3 10 0 [Op.accept (Accepted.conn true none none)] 0
    { Conn := 0, perConnLimit := NewLimiter 3 3 0, removeFn := some 0 } [1, 2, 3, 4] (4, none)
    rfl (by decide) (by decide) (by decide)
  have hadv :
      (reachable 3 10 0 [Op.accept (Accepted.conn true none none)]).l.globalLimit.advance
        (reachable 3 10 0 [Op.accept (Accepted.conn true none none)]).now -
          ([1, 2, 3, 4] : List Byte).length = 6 := by
    simp [reachable, run, step, LimitListener.Accept, NewLimitListener, NewLimiter,
      Limiter.advance]
    norm_num
  obtain ⟨⟨w1, a1, -, -, a4, -⟩, ⟨w2, b1, -, -, b4, -⟩⟩ := h
  exact ⟨rfl, ⟨w1, a1, by rw [a4, hadv]⟩, ⟨w2, b1, by rw [b4, hadv]⟩⟩

/-- C5, as stated, fails: `SetLimit(0, -1)` on a listener built with `(3, 10)` that
has one registered connection returns normally and changes every limiter, and
`NewLimitListener(l, 0, -1)` builds a listener with these values. -/
theorem C5_counterexample :
    (reachable 3 10 0 [Op.accept (Accepted.conn true none none)]).l.globalLimit.limit = 10 ∧
    (LimitListener.SetLimit (reachable 3 10 0 [Op.accept (Accepted.conn true none none)])
      0 (-1)).l.globalLimit.limit = -1 ∧
    (LimitListener.SetLimit (reachable 3 10 0 [Op.accept (Accepted.conn true none none)])
      0 (-1)).l.globalLimit.burst = -1 ∧
    (reachable 3 10 0 [Op.accept (Accepted.conn true none none)]).l.perConnLimit.burst = 3 ∧
    (LimitListener.SetLimit (reachable 3 10 0 [Op.accept (Accepted.conn true none none)])
      0 (-1)).l.perConnLimit.burst = 0 ∧
    limitConn.GetLimits (reachable 3 10 0 [Op.accept (Accepted.conn true none none)]) 0 =
      some (3, 10) ∧
    limitConn.GetLimits
      (LimitListener.SetLimit (reachable 3 10 0 [Op.accept (Accepted.conn true none none)])
        0 (-1)) 0 = some (0, -1) ∧
    (NewLimitListener 0 (-1) 0).l.globalLimit.burst = -1 ∧
    (NewLimitListener 0 (-1) 0).l.perConnLimit.limit = 0 := by
  decide

/-- C5, amended. Configuration values are not validated. For every pair of integers
`NewLimitListener(l, p, g)` builds a listener whose global limiter has rate and burst
`g` and whose default per-connection limiter has rate and burst `p`, and
`SetLimit(p, g)` installs the same on the global limiter, the default limiter and the
limiter of every registered connection. With `p <= 0` or `g <= 0` the value shows at
acquisition time: every `Read` and `Write` of a non-empty buffer on a registered
connection then returns `(0, error)` and the trace grows by limiter calls alone. -/
theorem C5_no_validation (w : World) (p g : Int) :
    (∀ t : ℚ, (NewLimitListener p g t).l.globalLimit.limit = g ∧
      (NewLimitListener p g t).l.globalLimit.burst = g ∧
      (NewLimitListener p g t).l.perConnLimit.limit = p ∧
      (NewLimitListener p g t).l.perConnLimit.burst = p) ∧
    ((LimitListener.SetLimit w p g).l.globalLimit.limit = g ∧
      (LimitListener.SetLimit w p g).l.globalLimit.burst = g ∧
      (LimitListener.SetLimit w p g).l.perConnLimit.limit = p ∧
      (LimitListener.SetLimit w p g).l.perConnLimit.burst = p ∧
      ∀ c ∈ (LimitListener.SetLimit w p g).l.activeConnections, ∀ conn : limitConn,
        (LimitListener.SetLimit w p g).conns[c]? = some conn →
          conn.perConnLimit.limit = p ∧ conn.perConnLimit.burst = p) ∧
    (p ≤ 0 ∨ g ≤ 0 →
      ∀ c ∈ (LimitListener.SetLimit w p g).l.activeConnections, ∀ conn : limitConn,
        (LimitListener.SetLimit w p g).conns[c]? = some conn →
        ∀ (b : List Byte) (res : Nat × Option Error), b ≠ [] →
          (∃ w1 e, limitConn.Read (LimitListener.SetLimit w p g) c b res =
              some (w1, 0, some e) ∧
            (w1.trace = (LimitListener.SetLimit w p g).trace ++ [Event.waitGlobal b.length] ∨
              w1.trace = (LimitListener.SetLimit w p g).trace ++
                [Event.waitGlobal b.length, Event.waitPerConn c b.length])) ∧
          (∃ w1 e, limitConn.Write (LimitListener.SetLimit w p g) c b res =
              some (w1, 0, some e) ∧
            (w1.trace = (LimitListener.SetLimit w p g).trace ++ [Event.waitGlobal b.length] ∨
              w1.trace = (LimitListener.SetLimit w p g).trace ++
                [Event.waitGlobal b.length, Event.waitPerConn c b.length]))) := by
  obtain ⟨i1, i2, i3, i4, i5⟩ := SetLimit_installs w p g
  refine ⟨fun t => ⟨rfl, rfl, rfl, rfl⟩, ⟨i1, i2, i3, i4, i5⟩, ?_⟩
  intro hpg c hc conn hconn b res hb
  have hpos : 0 < b.length := List.length_pos.mpr hb
  obtain ⟨-, j2⟩ := i5 c hc conn hconn
  obtain ⟨hr, hwr⟩ := gated_Read_Write (LimitListener.SetLimit w p g) c conn b res hconn hb
  by_cases hgl : (LimitListener.SetLimit w p g).l.globalLimit.burst < (b.length : Int)
  · obtain ⟨w1, a1, a2, -⟩ := hr.1 hgl
    obtain ⟨w2, b1, b2, -⟩ := hwr.1 hgl
    exact ⟨⟨w1, _, a1, Or.inl a2⟩, ⟨w2, _, b1, Or.inl b2⟩⟩
  · have hle := not_lt.mp hgl
    have hpl : conn.perConnLimit.burst < (b.length : Int) := by
      rw [i2] at hle
      rw [j2]
      omega
    obtain ⟨w1, a1, a2, -⟩ := hr.2.1 hle hpl
    obtain ⟨w2, b1, b2, -⟩ := hwr.2.1 hle hpl
    exact ⟨⟨w1, _, a1, Or.inr a2⟩, ⟨w2, _, b1, Or.inr b2⟩⟩

/-- Witness of the amended C5: after `SetLimit(0, 10)` on one registered connection a
`Read` of one byte fails. -/
theorem C5_no_validation_witness :
    ∃ w1 e, limitConn.Read
        (LimitListener.SetLimit (reachable 3 10 0 [Op.accept (Accepted.conn true none none)])
          0 10) 0 [7] (1, none) = some (w1, 0, some e) :=
  let h := ((C5_no_validation (reachable 3 10 0 [Op.accept (Accepted.conn true none none)])
    0 10).2.2 (Or.inl (by decide)) 0 (by decide) _ rfl [7] (1, none) (by decide)).1
  ⟨h.choose, h.choose_spec.choose, h.choose_spec.choose_spec.1⟩

/-- C6 fails on the code: `Write` has no `n > 0` guard. With limits `(3, 10)` and one
accepted connection, `Write` of an empty buffer calls `WaitN(ctx, 0)` on the global and
on the per-connection limiter before the transport write; `Read` of an empty buffer
calls the transport read alone. With limits `(-1, -1)` the zero-length `Write` even
fails in the global limiter and never reaches the transport, while `Read` returns the
transport's result. -/
theorem C6_write_empty_consults_limiters :
    (limitConn.Write (reachable 3 10 0 [Op.accept (Accepted.conn true none none)]) 0 []
        (0, none)).map (fun r => (r.1.trace, r.2)) =
      some ([Event.waitGlobal 0, Event.waitPerConn 0 0, Event.connWrite 0 0], 0, none) ∧
    (limitConn.Read (reachable 3 10 0 [Op.accept (Accepted.conn true none none)]) 0 []
        (0, none)).map (fun r => (r.1.trace, r.2)) =
      some ([Event.connRead 0 0], 0, none) ∧
    (limitConn.Write (reachable (-1) (-1) 0 [Op.accept (Accepted.conn true none none)]) 0 []
        (0, none)).map (fun r => (r.1.trace, r.2)) =
      some ([Event.waitGlobal 0], 0, some (Error.exceedsBurst 0 (-1))) ∧
    (limitConn.Read (reachable (-1) (-1) 0 [Op.accept (Accepted.conn true none none)]) 0 []
        (0, none)).map (fun r => (r.1.trace, r.2)) =
      some ([Event.connRead 0 0], 0, none) := by
  decide

/-- C7 fails on the code: when the wrapped listener returns a connection that is not a
`*net.TCPConn`, `Accept` returns a nil connection and the error `only TCP connections
are supported`, and registers nothing, but it returns without closing the raw
connection: it stays open, no `limitConn` refers to it, and no `Close` was called. -/
theorem C7_unsupported_connection_left_open :
    (LimitListener.Accept (NewLimitListener 3 10 0) (Accepted.conn false none none)).2 =
      (none, some Error.onlyTCP) ∧
    (LimitListener.Accept (NewLimitListener 3 10 0)
      (Accepted.conn false none none)).1.l.activeConnections = [] ∧
    (LimitListener.Accept (NewLimitListener 3 10 0) (Accepted.conn false none none)).1.raw =
      [{ isTCP := false, closed := false }] ∧
    (LimitListener.Accept (NewLimitListener 3 10 0)
      (Accepted.conn false none none)).1.conns.length = 0 ∧
    (LimitListener.Accept (NewLimitListener 3 10 0) (Accepted.conn false none none)).1.trace =
      [] := by
  decide

/-- C9, as stated, fails in two places. With limits `(-1, -1)`, which the code accepts,
nothing is admitted in a window of length `0` holding one `Write`, and `g*T + g` is
`-1`. With limits `(3, 3)`, a connection accepted and closed, then `SetLimit(1, 3)`: the
closed connection keeps its limiter at rate `3`, and in a window of length `1` two
`Read`s of three bytes are admitted on it, six bytes against `min(1, 3)*1 + 3 = 4`. -/
theorem C9_counterexample :
    ((reachable (-1) (-1) 0 [Op.accept (Accepted.conn true none none)]).l.globalLimit.limit =
        -1 ∧
      (run (reachable (-1) (-1) 0 [Op.accept (Accepted.conn true none none)])
        [Op.write 0 [7] (1, none)]).now -
        (reachable (-1) (-1) 0 [Op.accept (Accepted.conn true none none)]).now = 0 ∧
      (run (reachable (-1) (-1) 0 [Op.accept (Accepted.conn true none none)])
        [Op.write 0 [7] (1, none)]).trace =
        (reachable (-1) (-1) 0 [Op.accept (Accepted.conn true none none)]).trace ++
          [Event.waitGlobal 1] ∧
      ¬ ((admittedBytes [Event.waitGlobal 1] : ℚ) ≤ ((-1 : Int) : ℚ) * 0 + ((-1 : Int) : ℚ))) ∧
    (lastLimits 3 3 [Op.accept (Accepted.conn true none none), Op.close 0 none,
        Op.setLimit 1 3] = (1, 3) ∧
      (run (reachable 3 3 0 [Op.accept (Accepted.conn true none none), Op.close 0 none,
          Op.setLimit 1 3])
        [Op.read 0 [1, 2, 3] (0, some (Error.transport 1)), Op.tick 1,
          Op.read 0 [1, 2, 3] (0, some (Error.transport 1))]).now -
        (reachable 3 3 0 [Op.accept (Accepted.conn true none none), Op.close 0 none,
          Op.setLimit 1 3]).now = 1 ∧
      (run (reachable 3 3 0 [Op.accept (Accepted.conn true none none), Op.close 0 none,
          Op.setLimit 1 3])
        [Op.read 0 [1, 2, 3] (0, some (Error.transport 1)), Op.tick 1,
          Op.read 0 [1, 2, 3] (0, some (Error.transport 1))]).trace =
        (reachable 3 3 0 [Op.accept (Accepted.conn true none none), Op.close 0 none,
          Op.setLimit 1 3]).trace ++
          [Event.waitGlobal 3, Event.waitPerConn 0 3, Event.connRead 0 3,
            Event.waitGlobal 3, Event.waitPerConn 0 3, Event.connRead 0 3] ∧
      ¬ ((admittedBytesOf 0 [Event.waitGlobal 3, Event.waitPerConn 0 3, Event.connRead 0 3,
            Event.waitGlobal 3, Event.waitPerConn 0 3, Event.connRead 0 3] : ℚ) ≤
          ((min 1 3 : Int) : ℚ) * 1 + ((3 : Int) : ℚ))) := by
  refine ⟨⟨by decide, ?_, by decide, ?_⟩, ⟨by decide, ?_, by decide, ?_⟩⟩
  · simp [reachable, run, step, LimitListener.Accept, NewLimitListener, NewLimiter,
      limitConn.Write, Limiter.WaitN]
  · simp [admittedBytes, Event.bytes]
  · simp [reachable, run, step, LimitListener.Accept, NewLimitListener, NewLimiter,
      limitConn.Read, limitConn.Close, LimitListener.removeConnection, Limiter.WaitN,
      Limiter.advance, LimitListener.SetLimit, setConnLimit, Limiter.SetLimit,
      Limiter.SetBurst, closeRaw]
  · simp [admittedBytesOf, Event.bytesOf]
    norm_num

/-- C9, amended. Two-level throughput cap, for sequential calls on the logical clock.
Take a reachable world whose current limits `(p, g)` are not negative, and a window of
calls `win` without `SetLimit`, of length `T` (the time from its first call to the
return of its last). The calls of the window extend the trace by `evs`, and the sum of
`len(b)` over the `Read` and `Write` calls admitted in the window is at most `g*T + g`
across all connections, whatever their number. For a single connection it is at most
`min(q, g)*T + min(q, g)`, with `q` the rate of its own limiter if that is not negative;
`q` is `p` for every connection registered at the start of the window and for every
connection accepted within it. -/
theorem C9_throughput_cap (p0 g0 : Int) (t : ℚ) (ops win : List Op) (c : Nat)
    (hwin : win.all (fun op => !op.isSetLimit) = true)
    (hg : 0 ≤ (lastLimits p0 g0 ops).2) :
    ∃ evs, (run (reachable p0 g0 t ops) win).trace = (reachable p0 g0 t ops).trace ++ evs ∧
      (reachable p0 g0 t ops).now ≤ (run (reachable p0 g0 t ops) win).now ∧
      (admittedBytes evs : ℚ) ≤
        (lastLimits p0 g0 ops).2 *
          ((run (reachable p0 g0 t ops) win).now - (reachable p0 g0 t ops).now) +
        (lastLimits p0 g0 ops).2 ∧
      (0 ≤ connRate (reachable p0 g0 t ops) c →
        (admittedBytesOf c evs : ℚ) ≤
          ((min (connRate (reachable p0 g0 t ops) c) (lastLimits p0 g0 ops).2 : Int) : ℚ) *
            ((run (reachable p0 g0 t ops) win).now - (reachable p0 g0 t ops).now) +
          ((min (connRate (reachable p0 g0 t ops) c) (lastLimits p0 g0 ops).2 : Int) : ℚ)) ∧
      (c ∈ (reachable p0 g0 t ops).l.activeConnections ∨
          (reachable p0 g0 t ops).conns.length ≤ c →
        connRate (reachable p0 g0 t ops) c = (lastLimits p0 g0 ops).1) := by
  obtain ⟨hw, hc⟩ := reachable_inv p0 g0 t ops
  obtain ⟨evs, hevs⟩ := trace_run win (reachable p0 g0 t ops)
  have hgl : (reachable p0 g0 t ops).l.globalLimit.limit = (lastLimits p0 g0 ops).2 := hc.1
  obtain ⟨a1, a2, a3⟩ := window_bounds (reachable p0 g0 t ops) win c hw hwin
    (by rw [hgl]; exact hg) evs hevs
  rw [hgl] at a2
  refine ⟨evs, hevs, a1, a2, ?_, ?_⟩
  · intro hq
    have a4 := a3 hq
    have hle : (admittedBytesOf c evs : ℚ) ≤ (admittedBytes evs : ℚ) := by
      exact_mod_cast admittedBytesOf_le c evs
    rcases le_total (connRate (reachable p0 g0 t ops) c) (lastLimits p0 g0 ops).2 with h | h
    · rw [min_eq_left h]; exact a4
    · rw [min_eq_right h]; exact le_trans hle a2
  · intro hd
    exact connRate_registered _ _ _ c hw hc hd

/-- Witness of the amended C9: limits `(3, 10)`, one accepted connection, and a window
of three `Write`s of three bytes on it. The window takes two seconds; nine bytes are
admitted, against `10*2 + 10` for the listener and `3*2 + 3` for the connection. -/
theorem C9_throughput_cap_witness :
    (run (reachable 3 10 0 [Op.accept (Accepted.conn true none none)])
        [Op.write 0 [1, 2, 3] (3, none), Op.write 0 [1, 2, 3] (3, none),
          Op.write 0 [1, 2, 3] (3, none)]).now -
        (reachable 3 10 0 [Op.accept (Accepted.conn true none none)]).now = 2 ∧
      admittedBytesOf 0
        [Event.waitGlobal 3, Event.waitPerConn 0 3, Event.connWrite 0 3,
          Event.waitGlobal 3, Event.waitPerConn 0 3, Event.connWrite 0 3,
          Event.waitGlobal 3, Event.waitPerConn 0 3, Event.connWrite 0 3] = 9 ∧
      (admittedBytes
        [Event.waitGlobal 3, Event.waitPerConn 0 3, Event.connWrite 0 3,
          Event.waitGlobal 3, Event.waitPerConn 0 3, Event.connWrite 0 3,
          Event.waitGlobal 3, Event.waitPerConn 0 3, Event.connWrite 0 3] : ℚ) ≤
        (lastLimits 3 10 [Op.accept (Accepted.conn true none none)]).2 *
          ((run (reachable 3 10 0 [Op.accept (Accepted.conn true none none)])
            [Op.write 0 [1, 2, 3] (3, none), Op.write 0 [1, 2, 3] (3, none),
              Op.write 0 [1, 2, 3] (3, none)]).now -
            (reachable 3 10 0 [Op.accept (Accepted.conn true none none)]).now) +
        (lastLimits 3 10 [Op.accept (Accepted.conn true none none)]).2 ∧
      (admittedBytesOf 0
        [Event.waitGlobal 3, Event.waitPerConn 0 3, Event.connWrite 0 3,
          Event.waitGlobal 3, Event.waitPerConn 0 3, Event.connWrite 0 3,
          Event.waitGlobal 3, Event.waitPerConn 0 3, Event.connWrite 0 3] : ℚ) ≤
        ((min (connRate (reachable 3 10 0 [Op.accept (Accepted.conn true none none)]) 0)
          (lastLimits 3 10 [Op.accept (Accepted.conn true none none)]).2 : Int) : ℚ) *
          ((run (reachable 3 10 0 [Op.accept (Accepted.conn true none none)])
            [Op.write 0 [1, 2, 3] (3, none), Op.write 0 [1, 2, 3] (3, none),
              Op.write 0 [1, 2, 3] (3, none)]).now -
            (reachable 3 10 0 [Op.accept (Accepted.conn true none none)]).now) +
        ((min (connRate (reachable 3 10 0 [Op.accept (Accepted.conn true none none)]) 0)
          (lastLimits 3 10 [Op.accept (Accepted.conn true none none)]).2 : Int) : ℚ) := by
  obtain ⟨evs, h1, -, h3, h4, -⟩ := C9_throughput_cap 3 10 0
    [Op.accept (Accepted.conn true none none)]
    [Op.write 0 [1, 2, 3] (3, none), Op.write 0 [1, 2, 3] (3, none),
      Op.write 0 [1, 2, 3] (3, none)] 0 (by decide) (by decide)
  have htr : (run (reachable 3 10 0 [Op.accept (Accepted.conn true none none)])
      [Op.write 0 [1, 2, 3] (3, none), Op.write 0 [1, 2, 3] (3, none),
        Op.write 0 [1, 2, 3] (3, none)]).trace =
      (reachable 3 10 0 [Op.accept (Accepted.conn true none none)]).trace ++
        [Event.waitGlobal 3, Event.waitPerConn 0 3, Event.connWrite 0 3,
          Event.waitGlobal 3, Event.waitPerConn 0 3, Event.connWrite 0 3,
          Event.waitGlobal 3, Event.waitPerConn 0 3, Event.connWrite 0 3] := by decide
  have hevs := List.append_cancel_left (h1.symm.trans htr)
  subst hevs
  refine ⟨?_, by decide, h3, h4 (by decide)⟩
  simp [reachable, run, step, LimitListener.Accept, NewLimitListener, NewLimiter,
    limitConn.Write, Limiter.WaitN, Limiter.advance]
  norm_num


end Throttling
